import Mathlib

/-! # Checkpoint oracle and state-sync callback of go-gfscore

A shallow embedding of `les/checkpointoracle/oracle.go` and `core/state/sync.go`.

* Bytes are `Fin 256`; `common.Address` and `[32]byte` are byte lists of fixed length.
* `uint64` values are natural numbers; the one conversion that can wrap
  (`int(oracle.config.Threshold)`) is written out with `% 2^64`.
* The `crypto` package (Keccak-256, secp256k1 recovery) is outside the repository slice and is
  taken as a parameter (`Crypto`).
* `VerifySigners` writes through the slices of its argument (`signatures[i][64] -= 27`), and
  the entries of a `[][]byte` may share memory: the same slice can stand twice in the bundle,
  and slices of one array can overlap. The caller's memory is therefore explicit: a `Memory` maps
  addresses to bytes, an entry of the bundle is a `Slice` (the address of its first byte and its
  length), and `VerifySigners` takes the memory and returns the memory after the call together
  with the Go result.
-/

namespace GFS

/-! ## Data model -/

/-- One byte. -/
abbrev Byte := Fin 256

/-- The Go conversion `byte(n)` conversion of an unsigned integer: the low eight bits. -/
def byteOf (n : Nat) : Byte := ⟨n % 256, Nat.mod_lt _ (by decide)⟩

namespace common

/-- The type `common.Address`, a `[20]byte`. -/
abbrev Address := { l : List Byte // l.length = 20 }

/-- The type `common.Hash`, a `[32]byte`. -/
abbrev Hash := { l : List Byte // l.length = 32 }

end common

/-- The zero value `common.Address{}`. -/
def zeroAddress : common.Address := ⟨List.replicate 20 0, by simp⟩

/-- The zero value `[32]byte{}`. -/
def zeroHash : common.Hash := ⟨List.replicate 32 0, by simp⟩

namespace params

/-- The record `params.CheckpointOracleConfig`: registrar address, signer list, threshold
(a `uint64`). -/
structure CheckpointOracleConfig where
  Address : common.Address
  Signers : List common.Address
  Threshold : Nat
deriving DecidableEq

end params

/-- The two functions of package `crypto` that the oracle calls. `Ecrecover` returns `none` where
the Go function returns a non-nil error. The two length fields record what the library
guarantees (a 32-byte digest, a 65-byte uncompressed public key), so that the slice expressions
`pubkey[1:]` and `Keccak256(..)[12:]` are in range. -/
structure Crypto where
  Keccak256 : List Byte → List Byte
  Ecrecover : List Byte → List Byte → Option (List Byte)
  keccak256_length : ∀ d, (Keccak256 d).length = 32
  ecrecover_length : ∀ h s pk, Ecrecover h s = some pk → pk.length = 65

/-! ## `VerifySigners` -/

/-- The Go call `binary.BigEndian.PutUint64(buf, v)` on a fresh 8-byte buffer. -/
def PutUint64 (v : Nat) : List Byte :=
  [byteOf (v >>> 56), byteOf (v >>> 48), byteOf (v >>> 40), byteOf (v >>> 32),
   byteOf (v >>> 24), byteOf (v >>> 16), byteOf (v >>> 8), byteOf v]

/-- Lines 136-138 of `oracle.go`: the byte string `data` that is hashed and checked,
`append([]byte{0x19, 0x00}, append(address.Bytes(), append(buf, hash[:]...)...)...)`. -/
def signedData (address : common.Address) (index : Nat) (hash : common.Hash) : List Byte :=
  [0x19, 0x00] ++ (address.val ++ (PutUint64 index ++ hash.val))

/-- The caller's memory: the byte stored at every address. -/
abbrev Memory := Nat → Byte

/-- A slice header of type `[]byte`: the address of the first byte and the length. Two slices
share memory when their address ranges meet. -/
structure Slice where
  off : Nat
  len : Nat
deriving DecidableEq

/-- The bytes of a slice, `sig[0], .., sig[len-1]`. -/
def readSlice (mem : Memory) (sig : Slice) : List Byte :=
  (List.range sig.len).map (fun k => mem (sig.off + k))

/-- The statement `signatures[i][64] -= 27` (line 139) as a memory update: the byte at address
`sig.off + 64` is lowered by 27, with wrap-around modulo 256. -/
def lowerV (mem : Memory) (sig : Slice) : Memory :=
  fun a => if a = sig.off + 64 then byteOf ((mem (sig.off + 64)).val + 256 - 27) else mem a

/-- Line 145: `copy(signer[:], crypto.Keccak256(pubkey[1:])[12:])`. -/
def pubkeyToSigner (c : Crypto) (pubkey : List Byte) : common.Address :=
  ⟨(c.Keccak256 (pubkey.drop 1)).drop 12, by simp [c.keccak256_length]⟩

/-- Lines 140-145 on an entry that already went through `subV`: recover the public key from the
hash of `data` and derive the address; `none` is the `err != nil` branch. -/
def recoverSigner (c : Crypto) (data sig : List Byte) : Option common.Address :=
  match c.Ecrecover (c.Keccak256 data) sig with
  | none => none
  | some pubkey => some (pubkeyToSigner c pubkey)

/-- Lines 149-154: the scan of `oracle.config.Signers` for one recovered `signer`. The state is
the slice `signers` and the key set of the map `checked`. There is no `break`: every position of
the configured list that holds `signer` appends it once more. -/
def matchSigners (signer : common.Address) :
    List common.Address → List common.Address × List common.Address →
      List common.Address × List common.Address
  | [], st => st
  | s :: rest, (signers, checked) =>
    if s = signer then matchSigners signer rest (signers ++ [signer], signer :: checked)
    else matchSigners signer rest (signers, checked)

/-- Lines 122-155: the loop over the bundle, from the current entry on, in the current memory.
The first component is `none` when the loop left the function through `return false, nil` on a
recovery error, else the final value of `signers`; the second is the memory as the loop leaves
it. -/
def verifyLoop (c : Crypto) (cfg : params.CheckpointOracleConfig) (index : Nat)
    (hash : common.Hash) :
    List Slice → Memory → List common.Address → List common.Address →
      Option (List common.Address) × Memory
  | [], mem, signers, _ => (some signers, mem)
  | sig :: rest, mem, signers, checked =>
    if sig.len ≠ 65 then verifyLoop c cfg index hash rest mem signers checked
    else
      let data := signedData cfg.Address index hash
      let mem1 := lowerV mem sig
      match recoverSigner c data (readSlice mem1 sig) with
      | none => (none, mem1)
      | some signer =>
        if signer ∈ checked then verifyLoop c cfg index hash rest mem1 signers checked
        else
          let st := matchSigners signer cfg.Signers (signers, checked)
          verifyLoop c cfg index hash rest mem1 st.1 st.2

/-- The Go conversion `int(x)` of a `uint64` on a 64-bit platform (two's complement). -/
def intOfUint64 (x : Nat) : Int :=
  if x % 2 ^ 64 < 2 ^ 63 then ((x % 2 ^ 64 : Nat) : Int) else ((x % 2 ^ 64 : Nat) : Int) - 2 ^ 64

/-- The method `CheckpointOracle.VerifySigners` (lines 113-162), as a function of the oracle's
configuration and of the caller's memory. The result is `((ok, signers), mem)` with a nil slice
written `[]` and `mem` the memory after the call. -/
def VerifySigners (c : Crypto) (cfg : params.CheckpointOracleConfig) (index : Nat)
    (hash : common.Hash) (mem : Memory) (signatures : List Slice) :
    (Bool × List common.Address) × Memory :=
  if (signatures.length : Int) < intOfUint64 cfg.Threshold then ((false, []), mem)
  else
    match verifyLoop c cfg index hash signatures mem [] [] with
    | (none, out) => ((false, []), out)
    | (some signers, out) =>
      if signers.length < cfg.Threshold then ((false, []), out) else ((true, signers), out)

/-! ## Vocabulary of the claims about `VerifySigners` -/

/-- The bundle as the caller sees it in memory `mem`: the bytes of every entry. -/
def bundle (mem : Memory) (signatures : List Slice) : List (List Byte) :=
  signatures.map (readSlice mem)

/-- The bytes that every entry holds at the moment the loop comes to it (when the loop runs
that far): the memory has then gone through `signatures[i][64] -= 27` for every earlier
65-byte entry. For entries that share no memory this is `bundle`. -/
def seen : Memory → List Slice → List (List Byte)
  | _, [] => []
  | mem, sig :: rest =>
    readSlice mem sig :: seen (if sig.len = 65 then lowerV mem sig else mem) rest

/-- No two 65-byte entries of the bundle share memory. -/
def Separate (signatures : List Slice) : Prop :=
  signatures.Pairwise (fun s t => s.len = 65 → t.len = 65 →
    s.off + 65 ≤ t.off ∨ t.off + 65 ≤ s.off)

/-- Two 65-byte entries of the bundle either are the same 65 bytes of memory or share none. -/
def SameOrSeparate (signatures : List Slice) : Prop :=
  signatures.Pairwise (fun s t => s.len = 65 → t.len = 65 →
    s.off = t.off ∨ s.off + 65 ≤ t.off ∨ t.off + 65 ≤ s.off)

/-- One entry given by its bytes, after `sig[64] -= 27`. -/
def subV (sig : List Byte) : List Byte :=
  sig.set 64 (byteOf ((sig.getD 64 0).val + 256 - 27))

/-- The address that `VerifySigners` obtains from a 65-byte entry holding the bytes `sig`: the
entry goes through `signatures[i][64] -= 27` and is then recovered against the hash of the
signed data. `none` means that recovery fails on this entry. -/
def entryAddr (c : Crypto) (cfg : params.CheckpointOracleConfig) (index : Nat)
    (hash : common.Hash) (sig : List Byte) : Option common.Address :=
  recoverSigner c (signedData cfg.Address index hash) (subV sig)

/-- Some 65-byte entry of the list of entries fails public-key recovery. -/
def hasBadEntry (c : Crypto) (cfg : params.CheckpointOracleConfig) (index : Nat)
    (hash : common.Hash) (signatures : List (List Byte)) : Prop :=
  ∃ sig ∈ signatures, sig.length = 65 ∧ entryAddr c cfg index hash sig = none

/-- The addresses recovered from the 65-byte entries of the bundle, in array order, restricted
to those that occur in the configured signer list (repetitions kept). -/
def recoveredMembers (c : Crypto) (cfg : params.CheckpointOracleConfig) (index : Nat)
    (hash : common.Hash) (signatures : List (List Byte)) : List common.Address :=
  ((signatures.filter (fun sig => sig.length = 65)).filterMap (entryAddr c cfg index hash)).filter
    (fun a => a ∈ cfg.Signers)

/-- Keep the first occurrence of every element, in order. -/
def keepFirst {α : Type} [DecidableEq α] : List α → List α
  | [] => []
  | a :: l => a :: (keepFirst l).filter (fun b => b ≠ a)

/-- The memory that a call which got past the length short-circuit leaves behind: every
65-byte entry that the loop comes to lowers the byte at its index 64, up to and including the
first entry whose recovery fails. -/
def touched (c : Crypto) (cfg : params.CheckpointOracleConfig) (index : Nat)
    (hash : common.Hash) : List Slice → Memory → Memory
  | [], mem => mem
  | sig :: rest, mem =>
    if sig.len ≠ 65 then touched c cfg index hash rest mem
    else if entryAddr c cfg index hash (readSlice mem sig) = none then lowerV mem sig
    else touched c cfg index hash rest (lowerV mem sig)

/-- Entry `i` of a list of entries is reached by the loop: no 65-byte entry before it fails
recovery. -/
def reached (c : Crypto) (cfg : params.CheckpointOracleConfig) (index : Nat)
    (hash : common.Hash) (signatures : List (List Byte)) (i : Nat) : Prop :=
  ∀ sig ∈ signatures.take i, sig.length = 65 → entryAddr c cfg index hash sig ≠ none

/-- No two entries of the bundle, of whatever length, share memory. -/
def Apart (signatures : List Slice) : Prop :=
  signatures.Pairwise (fun s t => s.off + s.len ≤ t.off ∨ t.off + t.len ≤ s.off)

/-- The `n` low-order bytes of `v`, most significant first: the big-endian encoding the
specification names, to be compared with `PutUint64`. -/
def bigEndian : Nat → Nat → List Byte
  | 0, _ => []
  | n + 1, v => bigEndian n (v / 256) ++ [byteOf v]

/-! ## The oracle object: `New`, `Start`, `IsRunning`, `StableCheckpoint` -/

/-- The struct `CheckpointOracle`. `Contract` is the type of contract handles
(`*checkpointoracle.CheckpointOracle`, `none` for the nil pointer) and `TC` is
`params.TrustedCheckpoint`; both are declared outside this file. `running` is the `int32` flag. -/
structure CheckpointOracle (Contract TC : Type) where
  config : params.CheckpointOracleConfig
  contract : Option Contract
  running : Int
  getLocal : Nat → TC

/-- The constructor `New` (lines 46-61); `none` is the nil pointer, for the argument and for the
result. The fields that the struct literal leaves out get their zero values. -/
def New {Contract TC : Type} (config : Option params.CheckpointOracleConfig)
    (getLocal : Nat → TC) : Option (CheckpointOracle Contract TC) :=
  match config with
  | none => none
  | some config =>
    if config.Address = zeroAddress ∨ config.Signers.length < config.Threshold then none
    else some { config := config, contract := none, running := 0, getLocal := getLocal }

/-- The method `Start` (lines 65-76), run by one caller at a time. `bindContract` stands for
`checkpointoracle.NewCheckpointOracle` (`none` when it returns an error). -/
def Start {Contract TC Backend : Type} (bindContract : common.Address → Backend → Option Contract)
    (oracle : CheckpointOracle Contract TC) (backend : Backend) : CheckpointOracle Contract TC :=
  match bindContract oracle.config.Address backend with
  | none => oracle
  | some contract =>
    if oracle.running = 0 then { oracle with running := 1, contract := some contract }
    else oracle

/-- The method `IsRunning` (lines 79-81). -/
def IsRunning {Contract TC : Type} (oracle : CheckpointOracle Contract TC) : Bool :=
  decide (oracle.running = 1)

/-- What `StableCheckpoint` uses from other packages: the read-only contract call
`GetLatestCheckpoint(nil)`, giving `(latest, hash, height)` or `none` for a non-nil error, and
the method `TrustedCheckpoint.HashEqual`. -/
structure OracleEnv (Contract TC : Type) where
  GetLatestCheckpoint : Contract → Option (Nat × common.Hash × Nat)
  HashEqual : TC → common.Hash → Bool

/-- The method `(*big.Int).Uint64` on a non-negative value: its low 64 bits. -/
def bigUint64 (x : Nat) : Nat := x % 2 ^ 64

/-- The method `StableCheckpoint` (lines 90-109). The outer `none` is the call on an oracle
whose contract handle is nil, which this file gives no result; the inner option is the returned
pointer. -/
def StableCheckpoint {Contract TC : Type} (env : OracleEnv Contract TC)
    (oracle : CheckpointOracle Contract TC) : Option (Option TC × Nat) :=
  match oracle.contract with
  | none => none
  | some contract =>
    match env.GetLatestCheckpoint contract with
    | none => some (none, 0)
    | some (latest, hash, height) =>
      if latest = 0 ∧ hash = zeroHash then some (none, 0)
      else
        let loc := oracle.getLocal latest
        if env.HashEqual loc hash = true then some (some loc, bigUint64 height)
        else some (none, 0)

/-! ## `NewStateSync` -/

namespace state

/-- Modelled from the spec: the struct `Account` of package `state`, declared outside
`sync.go`; the spec describes it as an account record exposing at least `storageRoot` and
`codeHash`. `Root` is a `common.Hash`, `CodeHash` a byte slice. -/
structure Account where
  Root : common.Hash
  CodeHash : List Byte
deriving DecidableEq

/-- A method call on a `*trie.Sync`: the receiver and the arguments. For `AddSubTrie` the last
argument records whether the callback argument is nil. -/
inductive SyncCall (Ptr : Type) where
  | AddSubTrie (recv : Ptr) (root : common.Hash) (depth : Int) (parent : common.Hash)
      (callbackNil : Bool)
  | AddRawEntry (recv : Ptr) (hash : common.Hash) (depth : Int) (parent : common.Hash)
deriving DecidableEq

/-- What `sync.go` uses from other packages: `rlp.Decode` into an `Account` (an error value of
type `ε` on failure) and `common.BytesToHash`. -/
structure SyncEnv (ε : Type) where
  Decode : List Byte → Except ε Account
  BytesToHash : List Byte → common.Hash

/-- The closure `callback` of `NewStateSync` (lines 31-39), given the value of the captured
variable `syncer`. It yields the engine calls it performs, in order, and the returned error
(`none` for nil). -/
def callback {Ptr ε : Type} (env : SyncEnv ε) (syncer : Ptr) (leaf : List Byte)
    (parent : common.Hash) : List (SyncCall Ptr) × Option ε :=
  match env.Decode leaf with
  | .error err => ([], some err)
  | .ok obj =>
    ([SyncCall.AddSubTrie syncer obj.Root 64 parent true,
      SyncCall.AddRawEntry syncer (env.BytesToHash obj.CodeHash) 64 parent], none)

/-- The outcome of `NewStateSync`: the returned `*trie.Sync` and the callback installed on it. -/
structure StateSync (Ptr ε : Type) where
  syncer : Ptr
  onLeaf : List Byte → common.Hash → List (SyncCall Ptr) × Option ε

/-- The function `NewStateSync` (lines 29-42). `newSync root database bloom` is the pointer
that `trie.NewSync` returns; line 40 stores it in the variable `syncer` that the closure
captured, and line 41 returns it. -/
def NewStateSync {Ptr ε DB Bloom : Type} (env : SyncEnv ε)
    (newSync : common.Hash → DB → Bloom → Ptr) (root : common.Hash) (database : DB)
    (bloom : Bloom) : StateSync Ptr ε :=
  let syncer := newSync root database bloom
  { syncer := syncer, onLeaf := callback env syncer }

end state

/-! ## A small stand-in for the crypto library, used to evaluate the model -/

/-- Stand-in digest: the first 32 bytes of the input, zero padded. -/
def toyKeccak256 (d : List Byte) : List Byte := (d ++ List.replicate 32 0).take 32

/-- Stand-in recovery: a signature whose first byte is 255 or whose recovery id (byte 64) is
4 or more is rejected, any other signature yields the key `0x04` followed by 64 copies of the
first byte of the signature. -/
def toyEcrecover (_h sig : List Byte) : Option (List Byte) :=
  if sig.headD 0 = 255 ∨ 4 ≤ (sig.getD 64 0).val then none
  else some (4 :: List.replicate 64 (sig.headD 0))

/-- The stand-in library. -/
def toyCrypto : Crypto where
  Keccak256 := toyKeccak256
  Ecrecover := toyEcrecover
  keccak256_length := by intro d; simp [toyKeccak256]
  ecrecover_length := by
    intro h s pk hpk
    unfold toyEcrecover at hpk
    split at hpk
    · cases hpk
    · cases hpk; simp

/-- The address made of twenty copies of `k`; under `toyCrypto` it is the signer of `toySig k`. -/
def toyAddr (k : Byte) : common.Address := ⟨List.replicate 20 k, by simp⟩

/-- A 65-byte entry that `toyCrypto` recovers to `toyAddr k` (for `k ≠ 255`), with `V = 27`. -/
def toySig (k : Byte) : List Byte := k :: (List.replicate 63 0 ++ [27])

/-- A memory that holds the given byte strings one after the other from address 0 on, and
zeros behind them. -/
def toyMem (chunks : List (List Byte)) : Memory := fun a => chunks.flatten.getD a 0

/-- The slices of the byte strings laid out by `toyMem`, the first one at address `start`. -/
def toySlices : Nat → List (List Byte) → List Slice
  | _, [] => []
  | start, chunk :: rest => ⟨start, chunk.length⟩ :: toySlices (start + chunk.length) rest

/-- Signers `S1, S2, S3` (`toyAddr 1`, `toyAddr 2`, `toyAddr 3`) with threshold 2 at the
registrar `0xAA..AA`. -/
def toyConfig : params.CheckpointOracleConfig :=
  ⟨toyAddr 170, [toyAddr 1, toyAddr 2, toyAddr 3], 2⟩

/-- A configuration that lists the one signer `A` twice, with threshold 2. -/
def repeatedConfig (registrar A : common.Address) : params.CheckpointOracleConfig :=
  ⟨registrar, [A, A], 2⟩

/-- A configuration with the one signer `A` and threshold 1. -/
def singleConfig (registrar A : common.Address) : params.CheckpointOracleConfig :=
  ⟨registrar, [A], 1⟩

/-- A contract read that reports section 7 with the zero hash at height `2 ^ 64 + 5`, and a
hash comparison that accepts exactly the local checkpoint `7`. -/
def toyOracleEnv : OracleEnv Unit Nat where
  GetLatestCheckpoint := fun _ => some (7, zeroHash, 2 ^ 64 + 5)
  HashEqual := fun loc _ => decide (loc = 7)

/-- A decoder that rejects the empty leaf and otherwise reads an account whose code hash bytes
are the leaf itself; `BytesToHash` is replaced by a constant. -/
def toySyncEnv : state.SyncEnv Unit where
  Decode := fun leaf => if leaf = [] then .error () else .ok ⟨zeroHash, leaf⟩
  BytesToHash := fun _ => zeroHash

/-! ## Lemmas on memory and slices -/

section memory

theorem length_readSlice (mem : Memory) (s : Slice) : (readSlice mem s).length = s.len := by
  simp [readSlice]

theorem getElem?_readSlice (mem : Memory) (s : Slice) (k : Nat) (h : k < s.len) :
    (readSlice mem s)[k]? = some (mem (s.off + k)) := by
  simp [readSlice, List.getElem?_map, List.getElem?_range h]

theorem getD_readSlice (mem : Memory) (s : Slice) (k : Nat) (h : k < s.len) :
    (readSlice mem s).getD k 0 = mem (s.off + k) := by
  simp [List.getD_eq_getElem?_getD, getElem?_readSlice mem s k h]

theorem lowerV_same (mem : Memory) (s : Slice) :
    lowerV mem s (s.off + 64) = byteOf ((mem (s.off + 64)).val + 256 - 27) := by
  simp [lowerV]

theorem lowerV_other (mem : Memory) (s : Slice) (a : Nat) (h : a ≠ s.off + 64) :
    lowerV mem s a = mem a := by
  simp [lowerV, h]

theorem readSlice_congr (mem mem' : Memory) (t : Slice)
    (h : ∀ k, k < t.len → mem' (t.off + k) = mem (t.off + k)) :
    readSlice mem' t = readSlice mem t := by
  unfold readSlice
  apply List.map_congr_left
  intro k hk
  exact h k (List.mem_range.1 hk)

theorem readSlice_lowerV_of_apart (mem : Memory) (s t : Slice)
    (h : s.off + 64 < t.off ∨ t.off + t.len ≤ s.off + 64) :
    readSlice (lowerV mem s) t = readSlice mem t := by
  apply readSlice_congr
  intro k hk
  apply lowerV_other
  omega

theorem readSlice_lowerV_self (mem : Memory) (s : Slice) (h : s.len = 65) :
    readSlice (lowerV mem s) s = subV (readSlice mem s) := by
  apply List.ext_getElem?
  intro k
  by_cases hk : k < s.len
  · rw [getElem?_readSlice _ _ _ hk]
    by_cases h64 : k = 64
    · subst h64
      rw [subV, List.getElem?_set_self (by rw [length_readSlice]; exact hk),
        getD_readSlice mem s 64 hk, lowerV_same]
    · rw [subV, List.getElem?_set_ne (fun e => h64 e.symm), getElem?_readSlice _ _ _ hk,
        lowerV_other _ _ _ (by omega)]
  · have h1 : (readSlice (lowerV mem s) s).length ≤ k := by rw [length_readSlice]; omega
    have h2 : (subV (readSlice mem s)).length ≤ k := by
      simp only [subV, List.length_set, length_readSlice]; omega
    rw [List.getElem?_eq_none h1, List.getElem?_eq_none h2]

end memory

/-! ## Lemmas on `keepFirst` -/

section keepFirst
variable {α : Type} [DecidableEq α]

theorem mem_keepFirst (l : List α) (a : α) : a ∈ keepFirst l ↔ a ∈ l := by
  induction l with
  | nil => simp [keepFirst]
  | cons b l ih =>
    simp only [keepFirst, List.mem_cons, List.mem_filter, ih, decide_eq_true_eq]
    by_cases h : a = b <;> simp [h]

theorem nodup_keepFirst (l : List α) : (keepFirst l).Nodup := by
  induction l with
  | nil => simp [keepFirst]
  | cons b l ih =>
    simp only [keepFirst, List.nodup_cons, List.mem_filter, decide_eq_true_eq]
    exact ⟨fun h => h.2 rfl, ih.filter _⟩

theorem keepFirst_perm_dedup (l : List α) : (keepFirst l).Perm l.dedup :=
  (List.perm_ext_iff_of_nodup (nodup_keepFirst l) (List.nodup_dedup l)).2
    (fun a => by rw [mem_keepFirst, List.mem_dedup])

theorem length_keepFirst (l : List α) : (keepFirst l).length = l.dedup.length :=
  (keepFirst_perm_dedup l).length_eq

theorem keepFirst_sublist (l : List α) : (keepFirst l).Sublist l := by
  induction l with
  | nil => simp [keepFirst]
  | cons b l ih =>
    simp only [keepFirst]
    exact ((List.filter_sublist _).trans ih).cons₂ b

theorem length_keepFirst_le (l : List α) : (keepFirst l).length ≤ l.length :=
  (keepFirst_sublist l).length_le

theorem keepFirst_filter_cons (l : List α) (a : α) (seen : List α) :
    ((keepFirst l).filter (fun b => b ≠ a)).filter (fun b => b ∉ seen)
      = (keepFirst l).filter (fun b => b ∉ a :: seen) := by
  rw [List.filter_filter]
  congr 1
  funext b
  simp [not_or, Bool.and_comm]

theorem keepFirst_filter_of_mem (l : List α) (a : α) (seen : List α) (h : a ∈ seen) :
    ((keepFirst l).filter (fun b => b ≠ a)).filter (fun b => b ∉ seen)
      = (keepFirst l).filter (fun b => b ∉ seen) := by
  rw [List.filter_filter]
  apply List.filter_congr
  intro b _
  by_cases hb : b ∈ seen
  · simp [hb]
  · have : b ≠ a := fun e => hb (e ▸ h)
    simp [hb, this]

theorem keepFirst_cons_filter_of_mem (l : List α) (a : α) (seen : List α) (h : a ∈ seen) :
    (keepFirst (a :: l)).filter (fun b => b ∉ seen) = (keepFirst l).filter (fun b => b ∉ seen) := by
  have hd : decide (a ∉ seen) = false := by simpa using h
  rw [keepFirst, List.filter_cons, hd]
  exact keepFirst_filter_of_mem l a seen h

theorem keepFirst_cons_filter_of_not_mem (l : List α) (a : α) (seen : List α) (h : a ∉ seen) :
    (keepFirst (a :: l)).filter (fun b => b ∉ seen)
      = a :: (keepFirst l).filter (fun b => b ∉ a :: seen) := by
  have hd : decide (a ∉ seen) = true := by simpa using h
  rw [keepFirst, List.filter_cons, hd, if_pos rfl, keepFirst_filter_cons]

/-- The loop of the core function `List.eraseDups`, which also keeps first occurrences, in
terms of `keepFirst`. -/
theorem eraseDups_loop_eq (l seen : List α) :
    List.eraseDups.loop l seen
      = seen.reverse ++ (keepFirst l).filter (fun b => b ∉ seen) := by
  induction l generalizing seen with
  | nil => simp [List.eraseDups.loop, keepFirst]
  | cons a l ih =>
    by_cases h : a ∈ seen
    · have he : List.elem a seen = true := by simpa using h
      rw [keepFirst_cons_filter_of_mem l a seen h, List.eraseDups.loop, he]
      exact ih seen
    · have he : List.elem a seen = false := by simpa using h
      rw [keepFirst_cons_filter_of_not_mem l a seen h, List.eraseDups.loop, he]
      simp [ih]

/-- The function `keepFirst` agrees with `List.eraseDups`. -/
theorem keepFirst_eq_eraseDups (l : List α) : keepFirst l = l.eraseDups := by
  simp [List.eraseDups, eraseDups_loop_eq]

end keepFirst

/-! ## Lemmas on the loop of `VerifySigners` -/

section loop
variable (c : Crypto) (cfg : params.CheckpointOracleConfig) (index : Nat) (hash : common.Hash)

theorem matchSigners_of_not_mem (a : common.Address) (L : List common.Address)
    (st : List common.Address × List common.Address) (h : a ∉ L) : matchSigners a L st = st := by
  induction L generalizing st with
  | nil => rfl
  | cons s rest ih =>
    obtain ⟨sg, ch⟩ := st
    have hs : s ≠ a := fun e => h (e ▸ List.mem_cons_self _ _)
    have hr : a ∉ rest := fun e => h (List.mem_cons_of_mem _ e)
    simp [matchSigners, hs, ih _ hr]

theorem matchSigners_of_mem_nodup (a : common.Address) (L sg ch : List common.Address)
    (hn : L.Nodup) (h : a ∈ L) : matchSigners a L (sg, ch) = (sg ++ [a], a :: ch) := by
  induction L with
  | nil => cases h
  | cons s rest ih =>
    rw [List.nodup_cons] at hn
    by_cases hs : s = a
    · subst hs
      simp [matchSigners, matchSigners_of_not_mem _ _ _ hn.1]
    · have hr : a ∈ rest := by
        rcases List.mem_cons.1 h with e | e
        · exact absurd e.symm hs
        · exact e
      simp [matchSigners, hs, ih hn.2 hr]

theorem recoveredMembers_nil : recoveredMembers c cfg index hash [] = [] := rfl

theorem recoveredMembers_cons_skip (sig : List Byte) (rest : List (List Byte))
    (h : sig.length ≠ 65) :
    recoveredMembers c cfg index hash (sig :: rest) = recoveredMembers c cfg index hash rest := by
  simp [recoveredMembers, List.filter_cons, h]

theorem recoveredMembers_cons_some (sig : List Byte) (rest : List (List Byte))
    (a : common.Address) (h : sig.length = 65) (ha : entryAddr c cfg index hash sig = some a) :
    recoveredMembers c cfg index hash (sig :: rest) =
      if a ∈ cfg.Signers then a :: recoveredMembers c cfg index hash rest
      else recoveredMembers c cfg index hash rest := by
  simp [recoveredMembers, List.filter_cons, h, List.filterMap_cons, ha]

theorem length_seen (mem : Memory) (sigs : List Slice) : (seen mem sigs).length = sigs.length := by
  induction sigs generalizing mem with
  | nil => rfl
  | cons s rest ih => simp [seen, ih]

theorem seen_cons_skip (mem : Memory) (s : Slice) (rest : List Slice) (h : s.len ≠ 65) :
    seen mem (s :: rest) = readSlice mem s :: seen mem rest := by
  simp [seen, h]

theorem seen_cons_lower (mem : Memory) (s : Slice) (rest : List Slice) (h : s.len = 65) :
    seen mem (s :: rest) = readSlice mem s :: seen (lowerV mem s) rest := by
  simp [seen, h]

theorem recoverSigner_lowered (mem : Memory) (s : Slice) (h : s.len = 65) :
    recoverSigner c (signedData cfg.Address index hash) (readSlice (lowerV mem s) s)
      = entryAddr c cfg index hash (readSlice mem s) := by
  rw [readSlice_lowerV_self mem s h, entryAddr]

theorem verifyLoop_bad (sigs : List Slice) (mem : Memory) (sg ch : List common.Address)
    (h : hasBadEntry c cfg index hash (seen mem sigs)) :
    (verifyLoop c cfg index hash sigs mem sg ch).1 = none := by
  induction sigs generalizing mem sg ch with
  | nil => obtain ⟨s, hs, _⟩ := h; cases hs
  | cons sig rest ih =>
    by_cases h65 : sig.len = 65
    · rw [seen_cons_lower mem sig rest h65] at h
      obtain ⟨s, hs, hlen, hbad⟩ := h
      cases hrec : entryAddr c cfg index hash (readSlice mem sig) with
      | none =>
        rw [← recoverSigner_lowered c cfg index hash mem sig h65] at hrec
        simp [verifyLoop, h65, hrec]
      | some a =>
        have hrest : hasBadEntry c cfg index hash (seen (lowerV mem sig) rest) := by
          rcases List.mem_cons.1 hs with e | e
          · subst e; rw [hrec] at hbad; cases hbad
          · exact ⟨s, e, hlen, hbad⟩
        rw [← recoverSigner_lowered c cfg index hash mem sig h65] at hrec
        by_cases hch : a ∈ ch
        · simp [verifyLoop, h65, hrec, hch, ih _ _ _ hrest]
        · simp [verifyLoop, h65, hrec, hch, ih _ _ _ hrest]
    · rw [seen_cons_skip mem sig rest h65] at h
      obtain ⟨s, hs, hlen, hbad⟩ := h
      have hrest : hasBadEntry c cfg index hash (seen mem rest) := by
        rcases List.mem_cons.1 hs with e | e
        · subst e; rw [length_readSlice] at hlen; exact absurd hlen h65
        · exact ⟨s, e, hlen, hbad⟩
      simp [verifyLoop, h65, ih _ _ _ hrest]

theorem verifyLoop_good (hn : cfg.Signers.Nodup) (sigs : List Slice) (mem : Memory)
    (sg ch : List common.Address) (h : ¬ hasBadEntry c cfg index hash (seen mem sigs)) :
    (verifyLoop c cfg index hash sigs mem sg ch).1 =
      some (sg ++ (keepFirst (recoveredMembers c cfg index hash (seen mem sigs))).filter
        (fun b => b ∉ ch)) := by
  induction sigs generalizing mem sg ch with
  | nil => simp [verifyLoop, seen, recoveredMembers_nil, keepFirst]
  | cons sig rest ih =>
    by_cases h65 : sig.len = 65
    · rw [seen_cons_lower mem sig rest h65] at h ⊢
      have hl : (readSlice mem sig).length = 65 := by rw [length_readSlice]; exact h65
      have hrest : ¬ hasBadEntry c cfg index hash (seen (lowerV mem sig) rest) := by
        rintro ⟨s, hs, hlen, hbad⟩
        exact h ⟨s, List.mem_cons_of_mem _ hs, hlen, hbad⟩
      cases hrec : entryAddr c cfg index hash (readSlice mem sig) with
      | none => exact absurd ⟨_, List.mem_cons_self _ _, hl, hrec⟩ h
      | some a =>
        rw [recoveredMembers_cons_some c cfg index hash _ _ a hl hrec]
        rw [← recoverSigner_lowered c cfg index hash mem sig h65] at hrec
        by_cases hch : a ∈ ch
        · by_cases hmem : a ∈ cfg.Signers
          · rw [if_pos hmem, keepFirst_cons_filter_of_mem _ _ _ hch]
            simp [verifyLoop, h65, hrec, hch, ih _ _ _ hrest]
          · simp [verifyLoop, h65, hrec, hch, hmem, ih _ _ _ hrest]
        · by_cases hmem : a ∈ cfg.Signers
          · rw [if_pos hmem, keepFirst_cons_filter_of_not_mem _ _ _ hch]
            simp [verifyLoop, h65, hrec, hch, ih _ _ _ hrest,
              matchSigners_of_mem_nodup a cfg.Signers sg ch hn hmem]
          · simp [verifyLoop, h65, hrec, hch, hmem, ih _ _ _ hrest,
              matchSigners_of_not_mem a cfg.Signers (sg, ch) hmem]
    · rw [seen_cons_skip mem sig rest h65] at h ⊢
      have hl : (readSlice mem sig).length ≠ 65 := by rw [length_readSlice]; exact h65
      have hrest : ¬ hasBadEntry c cfg index hash (seen mem rest) := by
        rintro ⟨s, hs, hlen, hbad⟩
        exact h ⟨s, List.mem_cons_of_mem _ hs, hlen, hbad⟩
      rw [recoveredMembers_cons_skip c cfg index hash _ _ hl]
      simp [verifyLoop, h65, ih _ _ _ hrest]

theorem verifyLoop_snd (sigs : List Slice) (mem : Memory) (sg ch : List common.Address) :
    (verifyLoop c cfg index hash sigs mem sg ch).2 = touched c cfg index hash sigs mem := by
  induction sigs generalizing mem sg ch with
  | nil => simp [verifyLoop, touched]
  | cons sig rest ih =>
    by_cases h65 : sig.len = 65
    · cases hrec : entryAddr c cfg index hash (readSlice mem sig) with
      | none =>
        simp only [touched, hrec]
        rw [← recoverSigner_lowered c cfg index hash mem sig h65] at hrec
        simp [verifyLoop, h65, hrec]
      | some a =>
        simp only [touched, hrec]
        rw [← recoverSigner_lowered c cfg index hash mem sig h65] at hrec
        by_cases hch : a ∈ ch
        · simp [verifyLoop, h65, hrec, hch, ih]
        · simp [verifyLoop, h65, hrec, hch, ih]
    · simp [verifyLoop, touched, h65, ih]

theorem seen_filter (mem : Memory) (sigs : List Slice) :
    seen mem (sigs.filter (fun s => s.len = 65))
      = (seen mem sigs).filter (fun sig => sig.length = 65) := by
  induction sigs generalizing mem with
  | nil => rfl
  | cons s rest ih =>
    by_cases h65 : s.len = 65
    · simp [List.filter_cons, h65, seen, length_readSlice, ih]
    · simp [List.filter_cons, h65, seen, length_readSlice, ih]

end loop

section verify
variable (c : Crypto) (cfg : params.CheckpointOracleConfig) (index : Nat) (hash : common.Hash)

theorem intOfUint64_le (x : Nat) : intOfUint64 x ≤ (x : Int) := by
  unfold intOfUint64
  have h : x % 2 ^ 64 ≤ x := Nat.mod_le _ _
  split <;> omega

theorem length_recoveredMembers_le (sigs : List (List Byte)) :
    (recoveredMembers c cfg index hash sigs).length
      ≤ (sigs.filter (fun sig => sig.length = 65)).length := by
  unfold recoveredMembers
  exact (List.length_filter_le _ _).trans (List.length_filterMap_le _ _)

theorem recoveredMembers_filter (sigs : List (List Byte)) :
    recoveredMembers c cfg index hash (sigs.filter (fun sig => sig.length = 65))
      = recoveredMembers c cfg index hash sigs := by
  simp [recoveredMembers, List.filter_filter]

theorem hasBadEntry_filter (sigs : List (List Byte)) :
    hasBadEntry c cfg index hash (sigs.filter (fun sig => sig.length = 65))
      ↔ hasBadEntry c cfg index hash sigs := by
  unfold hasBadEntry
  constructor
  · rintro ⟨s, hs, hl, hb⟩
    exact ⟨s, (List.mem_filter.1 hs).1, hl, hb⟩
  · rintro ⟨s, hs, hl, hb⟩
    exact ⟨s, List.mem_filter.2 ⟨hs, by simpa using hl⟩, hl, hb⟩

theorem VerifySigners_of_bad (mem : Memory) (sigs : List Slice)
    (h : hasBadEntry c cfg index hash (seen mem sigs)) :
    (VerifySigners c cfg index hash mem sigs).1 = (false, []) := by
  unfold VerifySigners
  split
  · rfl
  · have hb := verifyLoop_bad c cfg index hash sigs mem [] [] h
    split
    · rfl
    · next sg out heq =>
      rw [heq] at hb
      cases hb

theorem VerifySigners_of_good (hn : cfg.Signers.Nodup) (mem : Memory) (sigs : List Slice)
    (h : ¬ hasBadEntry c cfg index hash (seen mem sigs))
    (hlen : ¬ (sigs.length : Int) < intOfUint64 cfg.Threshold) :
    (VerifySigners c cfg index hash mem sigs).1 =
      if (keepFirst (recoveredMembers c cfg index hash (seen mem sigs))).length < cfg.Threshold
      then (false, [])
      else (true, keepFirst (recoveredMembers c cfg index hash (seen mem sigs))) := by
  have hg := verifyLoop_good c cfg index hash hn sigs mem [] [] h
  simp only [List.nil_append, List.not_mem_nil, not_false_eq_true, decide_True,
    List.filter_true] at hg
  unfold VerifySigners
  rw [if_neg hlen]
  split
  · next out heq =>
    rw [heq] at hg
    cases hg
  · next sg out heq =>
    rw [heq] at hg
    cases hg
    split <;> rfl

theorem VerifySigners_of_few (hn : cfg.Signers.Nodup) (mem : Memory) (sigs : List Slice)
    (hfew : (keepFirst (recoveredMembers c cfg index hash (seen mem sigs))).length
      < cfg.Threshold) :
    (VerifySigners c cfg index hash mem sigs).1 = (false, []) := by
  by_cases hb : hasBadEntry c cfg index hash (seen mem sigs)
  · exact VerifySigners_of_bad c cfg index hash mem sigs hb
  · by_cases hlen : (sigs.length : Int) < intOfUint64 cfg.Threshold
    · unfold VerifySigners
      rw [if_pos hlen]
    · rw [VerifySigners_of_good c cfg index hash hn mem sigs hb hlen, if_pos hfew]

theorem VerifySigners_of_enough (hn : cfg.Signers.Nodup) (mem : Memory) (sigs : List Slice)
    (h : ¬ hasBadEntry c cfg index hash (seen mem sigs))
    (hT : cfg.Threshold ≤ (keepFirst (recoveredMembers c cfg index hash (seen mem sigs))).length) :
    (VerifySigners c cfg index hash mem sigs).1
      = (true, keepFirst (recoveredMembers c cfg index hash (seen mem sigs))) := by
  have hlen : ¬ (sigs.length : Int) < intOfUint64 cfg.Threshold := by
    have h1 := length_keepFirst_le (recoveredMembers c cfg index hash (seen mem sigs))
    have h2 := length_recoveredMembers_le c cfg index hash (seen mem sigs)
    have h3 : ((seen mem sigs).filter (fun sig => sig.length = 65)).length
        ≤ (seen mem sigs).length := List.length_filter_le _ _
    have h4 := intOfUint64_le cfg.Threshold
    have h5 := length_seen mem sigs
    omega
  rw [VerifySigners_of_good c cfg index hash hn mem sigs h hlen, if_neg (by omega)]

/-- With a signer list that names no address twice the threshold does count distinct signers:
fewer than `Threshold` distinct recovered member addresses give `(false, nil)`. -/
theorem VerifySigners_of_few_distinct (hn : cfg.Signers.Nodup) (mem : Memory)
    (sigs : List Slice)
    (hfew : (recoveredMembers c cfg index hash (seen mem sigs)).dedup.length < cfg.Threshold) :
    (VerifySigners c cfg index hash mem sigs).1 = (false, []) :=
  VerifySigners_of_few c cfg index hash hn mem sigs (by rw [length_keepFirst]; exact hfew)

theorem VerifySigners_snd (mem : Memory) (sigs : List Slice) :
    (VerifySigners c cfg index hash mem sigs).2 =
      if (sigs.length : Int) < intOfUint64 cfg.Threshold then mem
      else touched c cfg index hash sigs mem := by
  have hs := verifyLoop_snd c cfg index hash sigs mem [] []
  unfold VerifySigners
  split
  · rfl
  · split
    · next out heq => rw [heq] at hs; exact hs
    · next sg out heq =>
      rw [heq] at hs
      split <;> exact hs

end verify

/-! ## Lemmas on entries that share memory -/

section layout
variable (c : Crypto) (cfg : params.CheckpointOracleConfig) (index : Nat) (hash : common.Hash)

theorem filter_bundle (mem : Memory) (sigs : List Slice) :
    (bundle mem sigs).filter (fun sig => sig.length = 65)
      = (sigs.filter (fun s => s.len = 65)).map (readSlice mem) := by
  unfold bundle
  rw [List.filter_map]
  congr 1
  apply List.filter_congr
  intro t _
  simp [length_readSlice]

theorem filter_bundle_congr (mem mem' : Memory) (sigs : List Slice)
    (h : ∀ t ∈ sigs, t.len = 65 → readSlice mem' t = readSlice mem t) :
    (bundle mem' sigs).filter (fun sig => sig.length = 65)
      = (bundle mem sigs).filter (fun sig => sig.length = 65) := by
  rw [filter_bundle, filter_bundle]
  apply List.map_congr_left
  intro t ht
  rw [List.mem_filter] at ht
  exact h t ht.1 (by simpa using ht.2)

theorem filter_seen_of_separate (mem : Memory) (sigs : List Slice) (h : Separate sigs) :
    (seen mem sigs).filter (fun sig => sig.length = 65)
      = (bundle mem sigs).filter (fun sig => sig.length = 65) := by
  induction sigs generalizing mem with
  | nil => rfl
  | cons s rest ih =>
    unfold Separate at h
    rw [List.pairwise_cons] at h
    by_cases h65 : s.len = 65
    · rw [seen_cons_lower mem s rest h65]
      have hb : bundle mem (s :: rest) = readSlice mem s :: bundle mem rest := rfl
      rw [hb, List.filter_cons, List.filter_cons, ih _ h.2]
      rw [filter_bundle_congr mem (lowerV mem s) rest]
      intro t ht ht65
      apply readSlice_lowerV_of_apart
      have := h.1 t ht h65 ht65
      omega
    · rw [seen_cons_skip mem s rest h65]
      have hb : bundle mem (s :: rest) = readSlice mem s :: bundle mem rest := rfl
      rw [hb, List.filter_cons, List.filter_cons, ih _ h.2]

theorem recoveredMembers_seen_of_separate (mem : Memory) (sigs : List Slice)
    (h : Separate sigs) :
    recoveredMembers c cfg index hash (seen mem sigs)
      = recoveredMembers c cfg index hash (bundle mem sigs) := by
  rw [← recoveredMembers_filter c cfg index hash (seen mem sigs),
    ← recoveredMembers_filter c cfg index hash (bundle mem sigs),
    filter_seen_of_separate mem sigs h]

theorem hasBadEntry_seen_of_separate (mem : Memory) (sigs : List Slice) (h : Separate sigs) :
    hasBadEntry c cfg index hash (seen mem sigs)
      ↔ hasBadEntry c cfg index hash (bundle mem sigs) := by
  rw [← hasBadEntry_filter c cfg index hash (seen mem sigs),
    ← hasBadEntry_filter c cfg index hash (bundle mem sigs),
    filter_seen_of_separate mem sigs h]

theorem hasBadEntry_seen_of_sameOrSeparate (mem : Memory) (sigs : List Slice)
    (h : SameOrSeparate sigs) (hbad : hasBadEntry c cfg index hash (bundle mem sigs)) :
    hasBadEntry c cfg index hash (seen mem sigs) := by
  induction sigs generalizing mem with
  | nil => exact hbad
  | cons s rest ih =>
    unfold SameOrSeparate at h
    rw [List.pairwise_cons] at h
    obtain ⟨sig, hsig, hlen, hrec⟩ := hbad
    have hb : bundle mem (s :: rest) = readSlice mem s :: bundle mem rest := rfl
    rw [hb] at hsig
    by_cases h65 : s.len = 65
    · rw [seen_cons_lower mem s rest h65]
      by_cases hhead : entryAddr c cfg index hash (readSlice mem s) = none
      · exact ⟨_, List.mem_cons_self _ _, by rw [length_readSlice]; exact h65, hhead⟩
      · rcases List.mem_cons.1 hsig with e | e
        · subst e; exact absurd hrec hhead
        · unfold bundle at e
          obtain ⟨t, ht, rfl⟩ := List.mem_map.1 e
          rw [length_readSlice] at hlen
          have hst := h.1 t ht h65 hlen
          by_cases hoff : s.off = t.off
          · have : readSlice mem t = readSlice mem s := by
              unfold readSlice; rw [hoff, hlen, h65]
            rw [this] at hrec
            exact absurd hrec hhead
          · have hap : readSlice (lowerV mem s) t = readSlice mem t := by
              apply readSlice_lowerV_of_apart
              omega
            have hrest : hasBadEntry c cfg index hash (bundle (lowerV mem s) rest) :=
              ⟨readSlice (lowerV mem s) t, List.mem_map.2 ⟨t, ht, rfl⟩,
                by rw [length_readSlice]; exact hlen, by rw [hap]; exact hrec⟩
            obtain ⟨sig2, hs2, hl2, hr2⟩ := ih (lowerV mem s) h.2 hrest
            exact ⟨sig2, List.mem_cons_of_mem _ hs2, hl2, hr2⟩
    · rw [seen_cons_skip mem s rest h65]
      rcases List.mem_cons.1 hsig with e | e
      · subst e; rw [length_readSlice] at hlen; exact absurd hlen h65
      · obtain ⟨sig2, hs2, hl2, hr2⟩ := ih mem h.2 ⟨sig, e, hlen, hrec⟩
        exact ⟨sig2, List.mem_cons_of_mem _ hs2, hl2, hr2⟩

theorem sameOrSeparate_of_separate (sigs : List Slice) (h : Separate sigs) :
    SameOrSeparate sigs := by
  unfold Separate at h
  unfold SameOrSeparate
  exact h.imp (fun hst hs ht => Or.inr (hst hs ht))

end layout

/-! ## Lemmas on the signed byte string -/

theorem byteOf_eq_iff (m n : Nat) : byteOf m = byteOf n ↔ m % 256 = n % 256 := by
  unfold byteOf
  exact ⟨fun h => congrArg Fin.val h, fun h => Fin.ext h⟩

theorem PutUint64_eq_bigEndian (v : Nat) : PutUint64 v = bigEndian 8 v := by
  simp only [PutUint64, bigEndian, Nat.shiftRight_eq_div_pow, List.nil_append, List.cons_append,
    List.cons.injEq, byteOf_eq_iff, and_true, Nat.div_div_eq_div_mul]

theorem PutUint64_length (v : Nat) : (PutUint64 v).length = 8 := by
  simp [PutUint64]

theorem PutUint64_injective (i j : Nat) (hi : i < 2 ^ 64) (hj : j < 2 ^ 64)
    (h : PutUint64 i = PutUint64 j) : i = j := by
  simp only [PutUint64, List.cons.injEq, byteOf_eq_iff, Nat.shiftRight_eq_div_pow, and_true] at h
  norm_num at h hi hj
  omega

theorem signedData_length (a : common.Address) (i : Nat) (h : common.Hash) :
    (signedData a i h).length = 62 := by
  simp [signedData, PutUint64_length, a.2, h.2]

theorem signedData_injective (a a' : common.Address) (i i' : Nat) (h h' : common.Hash)
    (hi : i < 2 ^ 64) (hi' : i' < 2 ^ 64) (heq : signedData a i h = signedData a' i' h') :
    a = a' ∧ i = i' ∧ h = h' := by
  unfold signedData at heq
  have h1 := List.append_cancel_left heq
  have h2 := List.append_inj h1 (a.2.trans a'.2.symm)
  have h3 := List.append_inj h2.2 ((PutUint64_length i).trans (PutUint64_length i').symm)
  exact ⟨Subtype.ext h2.1, PutUint64_injective i i' hi hi' h3.1, Subtype.ext h3.2⟩

section explicit
variable (c : Crypto) (cfg : params.CheckpointOracleConfig) (index : Nat) (hash : common.Hash)

theorem verifyLoop_congr (c' : Crypto)
    (hrec : ∀ sig, recoverSigner c' (signedData cfg.Address index hash) sig
      = recoverSigner c (signedData cfg.Address index hash) sig)
    (sigs : List Slice) (mem : Memory) (sg ch : List common.Address) :
    verifyLoop c' cfg index hash sigs mem sg ch = verifyLoop c cfg index hash sigs mem sg ch := by
  induction sigs generalizing mem sg ch with
  | nil => simp only [verifyLoop]
  | cons sig rest ih =>
    simp only [verifyLoop, hrec, ih]

end explicit

/-! ## Lemmas on the memory after the call -/

section effect
variable (c : Crypto) (cfg : params.CheckpointOracleConfig) (index : Nat) (hash : common.Hash)

theorem subV_length (s : List Byte) : (subV s).length = s.length := by
  simp [subV]

theorem subV_take (s : List Byte) : (subV s).take 64 = s.take 64 := by
  rw [subV, List.set_take, List.set_eq_of_length_le]
  simp

theorem subV_getD (s : List Byte) (h : s.length = 65) :
    (((subV s).getD 64 0).val : Int) = (((s.getD 64 0).val : Int) - 27) % 256 := by
  have h64 : 64 < s.length := by omega
  simp only [subV, List.getD_eq_getElem?_getD, List.getElem?_set_self h64, Option.getD_some, byteOf]
  have hb := (s[64]?.getD 0).isLt
  omega

theorem subV_ne (s : List Byte) (h : s.length = 65) : subV s ≠ s := by
  intro e
  have h1 := subV_getD s h
  rw [e] at h1
  have hb := (s.getD 64 0).isLt
  omega

theorem reached_zero (sigs : List (List Byte)) : reached c cfg index hash sigs 0 := by
  intro s hs
  simp at hs

theorem reached_succ (sig : List Byte) (rest : List (List Byte)) (i : Nat) :
    reached c cfg index hash (sig :: rest) (i + 1) ↔
      (sig.length = 65 → entryAddr c cfg index hash sig ≠ none) ∧
        reached c cfg index hash rest i := by
  simp [reached, List.take_succ_cons]

theorem touched_frame (sigs : List Slice) (mem : Memory) (a : Nat)
    (h : ∀ s ∈ sigs, s.len = 65 → a ≠ s.off + 64) :
    touched c cfg index hash sigs mem a = mem a := by
  induction sigs generalizing mem with
  | nil => rfl
  | cons s rest ih =>
    have hrest : ∀ t ∈ rest, t.len = 65 → a ≠ t.off + 64 :=
      fun t ht => h t (List.mem_cons_of_mem _ ht)
    unfold touched
    split
    · exact ih mem hrest
    · next h65 =>
      have h65' : s.len = 65 := by simpa using h65
      have ha := h s (List.mem_cons_self _ _) h65'
      split
      · exact lowerV_other mem s a ha
      · rw [ih _ hrest, lowerV_other mem s a ha]

theorem readSlice_touched_of_apart (sigs : List Slice) (mem : Memory) (t : Slice)
    (h : ∀ s ∈ sigs, s.len = 65 → (s.off + 64 < t.off ∨ t.off + t.len ≤ s.off + 64)) :
    readSlice (touched c cfg index hash sigs mem) t = readSlice mem t := by
  apply readSlice_congr
  intro k hk
  apply touched_frame
  intro s hs h65
  have := h s hs h65
  omega

theorem bundle_lowerV_of_apart (mem : Memory) (s : Slice) (rest : List Slice)
    (h : ∀ t ∈ rest, s.off + s.len ≤ t.off ∨ t.off + t.len ≤ s.off) (h65 : s.len = 65) :
    bundle (lowerV mem s) rest = bundle mem rest := by
  unfold bundle
  apply List.map_congr_left
  intro t ht
  apply readSlice_lowerV_of_apart
  have := h t ht
  omega

theorem touched_entry (sigs : List Slice) (mem : Memory) (i : Nat) (s : Slice)
    (hap : Apart sigs) (hs : sigs[i]? = some s) :
    (s.len = 65 → reached c cfg index hash (bundle mem sigs) i →
      readSlice (touched c cfg index hash sigs mem) s = subV (readSlice mem s)) ∧
    ((s.len ≠ 65 ∨ ¬ reached c cfg index hash (bundle mem sigs) i) →
      readSlice (touched c cfg index hash sigs mem) s = readSlice mem s) := by
  induction sigs generalizing mem i with
  | nil => simp at hs
  | cons s0 rest ih =>
    unfold Apart at hap
    rw [List.pairwise_cons] at hap
    have hb : bundle mem (s0 :: rest) = readSlice mem s0 :: bundle mem rest := rfl
    cases i with
    | zero =>
      simp only [List.getElem?_cons_zero, Option.some.injEq] at hs
      subst hs
      have hrest : ∀ t ∈ rest, t.len = 65 →
          (t.off + 64 < s0.off ∨ s0.off + s0.len ≤ t.off + 64) := by
        intro t ht h65
        have := hap.1 t ht
        omega
      constructor
      · intro h65 _
        unfold touched
        rw [if_neg (by simpa using h65)]
        split
        · exact readSlice_lowerV_self mem s0 h65
        · rw [readSlice_touched_of_apart c cfg index hash rest _ s0 hrest,
            readSlice_lowerV_self mem s0 h65]
      · intro hor
        rcases hor with h | h
        · unfold touched
          rw [if_pos h]
          exact readSlice_touched_of_apart c cfg index hash rest _ s0 hrest
        · exact absurd (reached_zero c cfg index hash _) h
    | succ j =>
      simp only [List.getElem?_cons_succ] at hs
      have hmem : s ∈ rest := List.getElem?_mem hs
      rw [hb, reached_succ, length_readSlice]
      by_cases h065 : s0.len = 65
      · have hsep : readSlice (lowerV mem s0) s = readSlice mem s := by
          apply readSlice_lowerV_of_apart
          have := hap.1 s hmem
          omega
        by_cases hbad : entryAddr c cfg index hash (readSlice mem s0) = none
        · have ht : touched c cfg index hash (s0 :: rest) mem = lowerV mem s0 := by
            rw [touched, if_neg (by simpa using h065), if_pos hbad]
          rw [ht]
          exact ⟨fun _ hr => absurd hbad (hr.1 h065), fun _ => hsep⟩
        · have ht : touched c cfg index hash (s0 :: rest) mem
              = touched c cfg index hash rest (lowerV mem s0) := by
            rw [touched, if_neg (by simpa using h065), if_neg hbad]
          rw [ht]
          have hih := ih (lowerV mem s0) j hap.2 hs
          rw [bundle_lowerV_of_apart mem s0 rest hap.1 h065, hsep] at hih
          refine ⟨fun h65 hr => hih.1 h65 hr.2, fun hor => hih.2 ?_⟩
          rcases hor with h | h
          · exact Or.inl h
          · exact Or.inr (fun hr => h ⟨fun _ => hbad, hr⟩)
      · have ht : touched c cfg index hash (s0 :: rest) mem
            = touched c cfg index hash rest mem := by
          rw [touched, if_pos h065]
        rw [ht]
        have hih := ih mem j hap.2 hs
        refine ⟨fun h65 hr => hih.1 h65 hr.2, fun hor => hih.2 ?_⟩
        rcases hor with h | h
        · exact Or.inl h
        · exact Or.inr (fun hr => h ⟨fun e => absurd e h065, hr⟩)

theorem lowerV_twice (mem : Memory) (s : Slice) :
    ((lowerV (lowerV mem s) s (s.off + 64)).val : Int)
      = (((mem (s.off + 64)).val : Int) - 54) % 256 := by
  rw [lowerV_same, lowerV_same]
  simp only [byteOf]
  have hb := (mem (s.off + 64)).isLt
  omega

theorem lowerV_once (mem : Memory) (s : Slice) :
    ((lowerV mem s (s.off + 64)).val : Int)
      = (((mem (s.off + 64)).val : Int) - 27) % 256 := by
  rw [lowerV_same]
  simp only [byteOf]
  have hb := (mem (s.off + 64)).isLt
  omega

end effect

/-! ## Lemmas on a slice that stands twice in the bundle -/

section repeated
variable (c : Crypto) (cfg : params.CheckpointOracleConfig) (index : Nat) (hash : common.Hash)

theorem subV_getD_nat (b : List Byte) (h : b.length = 65) :
    ((subV b).getD 64 0).val = ((b.getD 64 0).val + 229) % 256 := by
  have h64 : 64 < b.length := by omega
  simp only [subV, List.getD_eq_getElem?_getD, List.getElem?_set_self h64, Option.getD_some,
    byteOf]
  omega

theorem entryAddr_of_small_id
    (hid : ∀ h b, 4 ≤ (b.getD 64 0).val → c.Ecrecover h b = none)
    (b : List Byte) (h65 : b.length = 65) (hv : (b.getD 64 0).val < 4) :
    entryAddr c cfg index hash b = none := by
  have h1 := subV_getD_nat b h65
  have h2 : 4 ≤ ((subV b).getD 64 0).val := by omega
  simp [entryAddr, recoverSigner, hid _ _ h2]

theorem id_small_of_entryAddr
    (hid : ∀ h b, 4 ≤ (b.getD 64 0).val → c.Ecrecover h b = none)
    (b : List Byte) (hrec : entryAddr c cfg index hash b ≠ none) :
    ((subV b).getD 64 0).val < 4 := by
  by_contra hv
  apply hrec
  simp [entryAddr, recoverSigner, hid _ _ (Nat.le_of_not_lt hv)]

theorem hasBadEntry_of_lowered
    (hid : ∀ h b, 4 ≤ (b.getD 64 0).val → c.Ecrecover h b = none)
    (o : Nat) (sigs : List Slice) (mem : Memory) (hv : (mem (o + 64)).val < 4)
    (hrep : ∃ t ∈ sigs, t.len = 65 ∧ t.off = o) :
    hasBadEntry c cfg index hash (seen mem sigs) := by
  induction sigs generalizing mem with
  | nil => obtain ⟨t, ht, _⟩ := hrep; cases ht
  | cons u rest ih =>
    obtain ⟨t, ht, ht65, hto⟩ := hrep
    by_cases h65 : u.len = 65
    · rw [seen_cons_lower mem u rest h65]
      have hl : (readSlice mem u).length = 65 := by rw [length_readSlice]; exact h65
      by_cases hu : u.off = o
      · refine ⟨_, List.mem_cons_self _ _, hl, ?_⟩
        apply entryAddr_of_small_id c cfg index hash hid _ hl
        rw [getD_readSlice mem u 64 (by omega), hu]
        exact hv
      · have htr : t ∈ rest := by
          rcases List.mem_cons.1 ht with e | e
          · subst e; exact absurd hto hu
          · exact e
        have hv' : (lowerV mem u (o + 64)).val < 4 := by
          rw [lowerV_other mem u (o + 64) (by omega)]; exact hv
        obtain ⟨b, hb, hbl, hbb⟩ := ih (lowerV mem u) hv' ⟨t, htr, ht65, hto⟩
        exact ⟨b, List.mem_cons_of_mem _ hb, hbl, hbb⟩
    · rw [seen_cons_skip mem u rest h65]
      have htr : t ∈ rest := by
        rcases List.mem_cons.1 ht with e | e
        · subst e; exact absurd ht65 h65
        · exact e
      obtain ⟨b, hb, hbl, hbb⟩ := ih mem hv ⟨t, htr, ht65, hto⟩
      exact ⟨b, List.mem_cons_of_mem _ hb, hbl, hbb⟩

/-- With a recovery that rejects recovery ids of 4 and more, a bundle that holds the same
65-byte slice at two positions always has an entry on which recovery fails. -/
theorem hasBadEntry_of_repeated
    (hid : ∀ h b, 4 ≤ (b.getD 64 0).val → c.Ecrecover h b = none)
    (sigs : List Slice) (mem : Memory)
    (hrep : ¬ sigs.Pairwise (fun s t => s.len = 65 → t.len = 65 → s.off ≠ t.off)) :
    hasBadEntry c cfg index hash (seen mem sigs) := by
  induction sigs generalizing mem with
  | nil => exact absurd List.Pairwise.nil hrep
  | cons s rest ih =>
    rw [List.pairwise_cons, not_and_or] at hrep
    by_cases h65 : s.len = 65
    · rw [seen_cons_lower mem s rest h65]
      have hl : (readSlice mem s).length = 65 := by rw [length_readSlice]; exact h65
      by_cases hhead : entryAddr c cfg index hash (readSlice mem s) = none
      · exact ⟨_, List.mem_cons_self _ _, hl, hhead⟩
      · rcases hrep with h | h
        · push_neg at h
          obtain ⟨t, ht, _, ht65, hto⟩ := h
          have hv := id_small_of_entryAddr c cfg index hash hid _ hhead
          rw [← readSlice_lowerV_self mem s h65, getD_readSlice _ s 64 (by omega)] at hv
          obtain ⟨b, hb, hbl, hbb⟩ := hasBadEntry_of_lowered c cfg index hash hid s.off rest
            (lowerV mem s) hv ⟨t, ht, ht65, hto.symm⟩
          exact ⟨b, List.mem_cons_of_mem _ hb, hbl, hbb⟩
        · obtain ⟨b, hb, hbl, hbb⟩ := ih (lowerV mem s) h
          exact ⟨b, List.mem_cons_of_mem _ hb, hbl, hbb⟩
    · rw [seen_cons_skip mem s rest h65]
      rcases hrep with h | h
      · push_neg at h
        obtain ⟨t, _, hs65, _, _⟩ := h
        exact absurd hs65 h65
      · obtain ⟨b, hb, hbl, hbb⟩ := ih mem h
        exact ⟨b, List.mem_cons_of_mem _ hb, hbl, hbb⟩

theorem separate_of_good
    (hid : ∀ h b, 4 ≤ (b.getD 64 0).val → c.Ecrecover h b = none)
    (sigs : List Slice) (mem : Memory) (hs : SameOrSeparate sigs)
    (hgood : ¬ hasBadEntry c cfg index hash (seen mem sigs)) : Separate sigs := by
  have hne : sigs.Pairwise (fun s t => s.len = 65 → t.len = 65 → s.off ≠ t.off) := by
    by_contra hrep
    exact hgood (hasBadEntry_of_repeated c cfg index hash hid sigs mem hrep)
  unfold SameOrSeparate at hs
  unfold Separate
  refine (hs.and hne).imp ?_
  rintro s t ⟨h1, h2⟩ hs65 ht65
  rcases h1 hs65 ht65 with e | e
  · exact absurd e (h2 hs65 ht65)
  · exact e

end repeated

/-! ## The claims -/

section claims
variable (c : Crypto) (cfg : params.CheckpointOracleConfig) (index : Nat) (hash : common.Hash)

/-- C1, where the code departs from the claim. The configuration `(registrar, [A, A], 2)` names
one signer twice; `New` accepts it. For a bundle made of one 65-byte signature that recovers to
`A` and one entry of another length, wherever the two lie in memory, exactly one distinct
member address is recovered, which is below the threshold 2, and yet `VerifySigners` returns
`(true, [A, A])`: the scan of the configured list appends `A` once per position that holds
it. -/
theorem VerifySigners_repeated_signer_counts_twice (registrar A : common.Address)
    (mem : Memory) (sig other : Slice) (getLocal : Nat → Unit)
    (hreg : registrar ≠ zeroAddress) (hsig : sig.len = 65) (hother : other.len ≠ 65)
    (hrec : entryAddr c (repeatedConfig registrar A) index hash (readSlice mem sig) = some A) :
    (@New Unit Unit (some (repeatedConfig registrar A)) getLocal).isSome = true ∧
    (recoveredMembers c (repeatedConfig registrar A) index hash
      (bundle mem [sig, other])).dedup.length = 1 ∧
    (VerifySigners c (repeatedConfig registrar A) index hash mem [sig, other]).1
      = (true, [A, A]) := by
  have hl : (readSlice mem sig).length = 65 := by rw [length_readSlice]; exact hsig
  have hlo : (readSlice mem other).length ≠ 65 := by rw [length_readSlice]; exact hother
  refine ⟨?_, ?_, ?_⟩
  · simp [New, repeatedConfig, hreg]
  · have hb : bundle mem [sig, other] = [readSlice mem sig, readSlice mem other] := rfl
    rw [hb, recoveredMembers_cons_some c _ index hash _ _ A hl hrec,
      recoveredMembers_cons_skip c _ index hash _ _ hlo]
    simp [repeatedConfig, recoveredMembers_nil]
  · rw [← recoverSigner_lowered c _ index hash mem sig hsig] at hrec
    have hT : ¬ ((2 : Int) < intOfUint64 2) := by
      unfold intOfUint64; norm_num
    simp only [repeatedConfig] at hrec
    simp [VerifySigners, verifyLoop, repeatedConfig, hsig, hother, hrec, matchSigners, hT]

theorem VerifySigners_repeated_signer_counts_twice_witness :
    (@New Unit Unit (some (repeatedConfig (toyAddr 170) (toyAddr 1)))
      (fun _ => ())).isSome = true ∧
    (recoveredMembers toyCrypto (repeatedConfig (toyAddr 170) (toyAddr 1)) 7 zeroHash
      (bundle (toyMem [toySig 1]) [⟨0, 65⟩, ⟨65, 0⟩])).dedup.length = 1 ∧
    (VerifySigners toyCrypto (repeatedConfig (toyAddr 170) (toyAddr 1)) 7 zeroHash
      (toyMem [toySig 1]) [⟨0, 65⟩, ⟨65, 0⟩]).1 = (true, [toyAddr 1, toyAddr 1]) :=
  VerifySigners_repeated_signer_counts_twice toyCrypto 7 zeroHash (toyAddr 170) (toyAddr 1)
    (toyMem [toySig 1]) ⟨0, 65⟩ ⟨65, 0⟩ (fun _ => ()) (by decide) (by decide) (by decide)
    (by decide)

/-- C2, where the code departs from the claim. Take a recovery that rejects recovery ids of 4
and more, the signer list `[A]` with threshold 1, and a bundle that holds the same 65-byte slice
twice, a signature of `A`. The signer list has no repeated address, every 65-byte entry of the
bundle as the caller passes it recovers, and the recovered addresses contain exactly one
distinct member, so the claim promises `(true, [A])`; the code returns `(false, nil)`, because
line 139 lowers the shared byte 64 a second time before the second recovery. More generally,
for every configuration, a bundle in which one 65-byte slice stands at two positions is answered
with `(false, nil)`. -/
theorem VerifySigners_repeated_slice_rejected (registrar A : common.Address) (mem : Memory)
    (sig : Slice) (sigs : List Slice)
    (hid : ∀ h b, 4 ≤ (b.getD 64 0).val → c.Ecrecover h b = none)
    (hsig : sig.len = 65)
    (hrec : entryAddr c (singleConfig registrar A) index hash (readSlice mem sig) = some A) :
    ((singleConfig registrar A).Signers.Nodup ∧
      (∀ b ∈ bundle mem [sig, sig], b.length = 65 →
        entryAddr c (singleConfig registrar A) index hash b ≠ none) ∧
      (recoveredMembers c (singleConfig registrar A) index hash
        (bundle mem [sig, sig])).dedup.length = (singleConfig registrar A).Threshold ∧
      (VerifySigners c (singleConfig registrar A) index hash mem [sig, sig]).1 = (false, [])) ∧
    (¬ sigs.Pairwise (fun s t => s.len = 65 → t.len = 65 → s.off ≠ t.off) →
      (VerifySigners c cfg index hash mem sigs).1 = (false, [])) := by
  have hl : (readSlice mem sig).length = 65 := by rw [length_readSlice]; exact hsig
  have hb : bundle mem [sig, sig] = [readSlice mem sig, readSlice mem sig] := rfl
  refine ⟨⟨by simp [singleConfig], ?_, ?_, ?_⟩, ?_⟩
  · intro b hbm _
    rw [hb] at hbm
    have : b = readSlice mem sig := by simpa using hbm
    rw [this, hrec]
    simp
  · rw [hb, recoveredMembers_cons_some c _ index hash _ _ A hl hrec,
      recoveredMembers_cons_some c _ index hash _ _ A hl hrec]
    simp [singleConfig, recoveredMembers_nil]
  · apply VerifySigners_of_bad
    apply hasBadEntry_of_repeated c _ index hash hid
    simp [hsig]
  · intro hrep
    exact VerifySigners_of_bad c cfg index hash mem sigs
      (hasBadEntry_of_repeated c cfg index hash hid sigs mem hrep)

theorem toyCrypto_rejects_id (h b : List Byte) (hv : 4 ≤ (b.getD 64 0).val) :
    toyCrypto.Ecrecover h b = none := by
  show toyEcrecover h b = none
  unfold toyEcrecover
  rw [if_pos (Or.inr hv)]

theorem VerifySigners_repeated_slice_rejected_witness :
    (VerifySigners toyCrypto (singleConfig (toyAddr 170) (toyAddr 1)) 7 zeroHash
      (toyMem [toySig 1]) [⟨0, 65⟩, ⟨0, 65⟩]).1 = (false, []) :=
  (VerifySigners_repeated_slice_rejected toyCrypto toyConfig 7 zeroHash (toyAddr 170) (toyAddr 1)
    (toyMem [toySig 1]) ⟨0, 65⟩ [] toyCrypto_rejects_id (by decide) (by decide)).1.2.2.2

/-- On a bundle whose 65-byte entries share no memory, exactly `Threshold` distinct member
signatures, with repeats and signatures of non-members anywhere, are approved with
`len(signers) = Threshold`. -/
theorem VerifySigners_exactly_threshold_of_separate (mem : Memory) (sigs : List Slice)
    (hn : cfg.Signers.Nodup) (hsep : Separate sigs)
    (hall : ∀ b ∈ bundle mem sigs, b.length = 65 → entryAddr c cfg index hash b ≠ none)
    (hT : (recoveredMembers c cfg index hash (bundle mem sigs)).dedup.length = cfg.Threshold) :
    ∃ signers, (VerifySigners c cfg index hash mem sigs).1 = (true, signers) ∧
      signers.length = cfg.Threshold := by
  have hgood : ¬ hasBadEntry c cfg index hash (seen mem sigs) := by
    rw [hasBadEntry_seen_of_separate c cfg index hash mem sigs hsep]
    rintro ⟨s, hs, hl, hb⟩
    exact hall s hs hl hb
  rw [← recoveredMembers_seen_of_separate c cfg index hash mem sigs hsep] at hT
  have hlen := length_keepFirst (recoveredMembers c cfg index hash (seen mem sigs))
  refine ⟨keepFirst (recoveredMembers c cfg index hash (seen mem sigs)), ?_, by omega⟩
  exact VerifySigners_of_enough c cfg index hash hn mem sigs hgood (by omega)

/-- C3. For every configuration, memory and bundle: when recovery fails on some 65-byte entry,
judged on the bytes the entry holds when the loop comes to it, `VerifySigners` returns
`(false, nil)`, wherever the entry stands and whatever the other entries are. The same holds
with the entry judged on the bytes the caller passed, for every bundle whose 65-byte entries
pairwise are the same slice or share no memory. -/
theorem VerifySigners_recovery_failure_aborts (mem : Memory) (sigs : List Slice) :
    ((∃ b ∈ seen mem sigs, b.length = 65 ∧ entryAddr c cfg index hash b = none) →
      (VerifySigners c cfg index hash mem sigs).1 = (false, [])) ∧
    (SameOrSeparate sigs →
      (∃ b ∈ bundle mem sigs, b.length = 65 ∧ entryAddr c cfg index hash b = none) →
        (VerifySigners c cfg index hash mem sigs).1 = (false, [])) :=
  ⟨fun h => VerifySigners_of_bad c cfg index hash mem sigs h,
   fun hs h => VerifySigners_of_bad c cfg index hash mem sigs
    (hasBadEntry_seen_of_sameOrSeparate c cfg index hash mem sigs hs h)⟩

theorem VerifySigners_recovery_failure_aborts_witness :
    (VerifySigners toyCrypto toyConfig 7 zeroHash
      (toyMem [toySig 1, toySig 3, toySig 255, toySig 2])
      (toySlices 0 [toySig 1, toySig 3, toySig 255, toySig 2])).1 = (false, []) ∧
    (VerifySigners toyCrypto toyConfig 7 zeroHash
      (toyMem [toySig 1, toySig 3, toySig 255])
      [⟨0, 65⟩, ⟨65, 65⟩, ⟨130, 65⟩, ⟨130, 65⟩]).1 = (false, []) :=
  ⟨(VerifySigners_recovery_failure_aborts toyCrypto toyConfig 7 zeroHash
      (toyMem [toySig 1, toySig 3, toySig 255, toySig 2])
      (toySlices 0 [toySig 1, toySig 3, toySig 255, toySig 2])).1
      ⟨toySig 255, by decide, by decide, by decide⟩,
   (VerifySigners_recovery_failure_aborts toyCrypto toyConfig 7 zeroHash
      (toyMem [toySig 1, toySig 3, toySig 255])
      [⟨0, 65⟩, ⟨65, 65⟩, ⟨130, 65⟩, ⟨130, 65⟩]).2
      (by unfold SameOrSeparate; decide) ⟨toySig 255, by decide, by decide, by decide⟩⟩

/-- C4. When the signer list has no repeated address and `VerifySigners` returns
`(true, signers)`, every 65-byte entry recovered, and `signers` is the list of the addresses
recovered from the 65-byte entries in array order, restricted to members of the signer list,
with only the first occurrence of each address kept; no address occurs twice in it. This holds
in every memory for the bytes the loop finds in the entries, and for the bytes the caller
passed when the 65-byte entries share no memory, or when they pairwise are the same slice or
share none and recovery rejects recovery ids of 4 and more. -/
theorem VerifySigners_signers_first_seen (mem : Memory) (sigs : List Slice)
    (signers : List common.Address) (hn : cfg.Signers.Nodup)
    (h : (VerifySigners c cfg index hash mem sigs).1 = (true, signers)) :
    (signers = keepFirst (recoveredMembers c cfg index hash (seen mem sigs)) ∧ signers.Nodup ∧
      (∀ b ∈ seen mem sigs, b.length = 65 → entryAddr c cfg index hash b ≠ none)) ∧
    ((Separate sigs ∨ (SameOrSeparate sigs ∧
        ∀ h b, 4 ≤ (b.getD 64 0).val → c.Ecrecover h b = none)) →
      signers = keepFirst (recoveredMembers c cfg index hash (bundle mem sigs)) ∧
        (∀ b ∈ bundle mem sigs, b.length = 65 → entryAddr c cfg index hash b ≠ none)) := by
  have key : ¬ hasBadEntry c cfg index hash (seen mem sigs) ∧
      signers = keepFirst (recoveredMembers c cfg index hash (seen mem sigs)) := by
    by_cases hb : hasBadEntry c cfg index hash (seen mem sigs)
    · rw [VerifySigners_of_bad c cfg index hash mem sigs hb] at h
      simp at h
    · by_cases hfew : (keepFirst (recoveredMembers c cfg index hash (seen mem sigs))).length
          < cfg.Threshold
      · rw [VerifySigners_of_few c cfg index hash hn mem sigs hfew] at h
        simp at h
      · rw [VerifySigners_of_enough c cfg index hash hn mem sigs hb (by omega)] at h
        exact ⟨hb, by simpa using h.symm⟩
  obtain ⟨hgood, hs⟩ := key
  refine ⟨⟨hs, by rw [hs]; exact nodup_keepFirst _,
    fun b hb hl hbad => hgood ⟨b, hb, hl, hbad⟩⟩, ?_⟩
  intro hlay
  have hsep : Separate sigs := by
    rcases hlay with h1 | ⟨h1, hid⟩
    · exact h1
    · exact separate_of_good c cfg index hash hid sigs mem h1 hgood
  rw [← recoveredMembers_seen_of_separate c cfg index hash mem sigs hsep]
  refine ⟨hs, fun b hb hl hbad => hgood ?_⟩
  rw [hasBadEntry_seen_of_separate c cfg index hash mem sigs hsep]
  exact ⟨b, hb, hl, hbad⟩

theorem VerifySigners_signers_first_seen_witness :
    [toyAddr 1, toyAddr 3]
        = keepFirst (recoveredMembers toyCrypto toyConfig 7 zeroHash
            (bundle (toyMem [toySig 1, toySig 9, toySig 3])
              (toySlices 0 [toySig 1, toySig 9, toySig 3]))) ∧
      (∀ b ∈ bundle (toyMem [toySig 1, toySig 9, toySig 3])
          (toySlices 0 [toySig 1, toySig 9, toySig 3]), b.length = 65 →
        entryAddr toyCrypto toyConfig 7 zeroHash b ≠ none) :=
  (VerifySigners_signers_first_seen toyCrypto toyConfig 7 zeroHash
    (toyMem [toySig 1, toySig 9, toySig 3]) (toySlices 0 [toySig 1, toySig 9, toySig 3])
    [toyAddr 1, toyAddr 3] (by decide) (by decide)).2 (Or.inl (by unfold Separate; decide))

/-- The order of the result follows the bundle, not the configured list. -/
theorem VerifySigners_order_follows_bundle :
    (VerifySigners toyCrypto toyConfig 7 zeroHash
      (toyMem [toySig 3, toySig 9, toySig 1, toySig 3])
      (toySlices 0 [toySig 3, toySig 9, toySig 1, toySig 3])).1
      = (true, [toyAddr 3, toyAddr 1]) := by decide

/-- C9. When the signer list has no repeated address, `VerifySigners` returns the same
`(ok, signers)` on a bundle and on the bundle without its entries of length other than 65, from
the same memory, for every threshold, index and hash and every layout of the entries. -/
theorem VerifySigners_skips_wrong_length (mem : Memory) (sigs : List Slice)
    (hn : cfg.Signers.Nodup) :
    (VerifySigners c cfg index hash mem sigs).1
      = (VerifySigners c cfg index hash mem (sigs.filter (fun s => s.len = 65))).1 := by
  have hseen := seen_filter mem sigs
  by_cases hb : hasBadEntry c cfg index hash (seen mem sigs)
  · rw [VerifySigners_of_bad c cfg index hash mem sigs hb,
      VerifySigners_of_bad c cfg index hash mem _
        (by rw [hseen]; exact (hasBadEntry_filter c cfg index hash _).2 hb)]
  · have hb2 : ¬ hasBadEntry c cfg index hash (seen mem (sigs.filter (fun s => s.len = 65))) := by
      rw [hseen]
      exact mt (hasBadEntry_filter c cfg index hash _).1 hb
    have hrm : recoveredMembers c cfg index hash (seen mem (sigs.filter (fun s => s.len = 65)))
        = recoveredMembers c cfg index hash (seen mem sigs) := by
      rw [hseen, recoveredMembers_filter]
    by_cases hfew : (keepFirst (recoveredMembers c cfg index hash (seen mem sigs))).length
        < cfg.Threshold
    · rw [VerifySigners_of_few c cfg index hash hn mem sigs hfew,
        VerifySigners_of_few c cfg index hash hn mem _ (by rw [hrm]; exact hfew)]
    · rw [VerifySigners_of_enough c cfg index hash hn mem sigs hb (by omega),
        VerifySigners_of_enough c cfg index hash hn mem _ hb2 (by rw [hrm]; omega), hrm]

theorem VerifySigners_skips_wrong_length_witness :
    (VerifySigners toyCrypto toyConfig 7 zeroHash (toyMem [[], toySig 1, [27], toySig 3])
        (toySlices 0 [[], toySig 1, [27], toySig 3])).1
      = (VerifySigners toyCrypto toyConfig 7 zeroHash (toyMem [[], toySig 1, [27], toySig 3])
          ((toySlices 0 [[], toySig 1, [27], toySig 3]).filter (fun s => s.len = 65))).1 :=
  VerifySigners_skips_wrong_length toyCrypto toyConfig 7 zeroHash
    (toyMem [[], toySig 1, [27], toySig 3]) (toySlices 0 [[], toySig 1, [27], toySig 3])
    (by decide)

/-- C5. The byte string `data` is `0x19, 0x00`, the 20 address bytes, the index as 8 big-endian
bytes and the 32 hash bytes, 62 bytes in all, and for 64-bit indices two triples
`(address, index, hash)` give the same string exactly when they are equal. `VerifySigners`
hands the Keccak-256 hash of exactly this string to recovery: a 65-byte entry on which
`Ecrecover` of that hash fails makes the call return `(false, nil)`; a bundle of one 65-byte
entry on which `Ecrecover` of that hash gives a key of a configured signer is approved with
that signer (threshold at most 1); and a library with the same `Keccak256` whose `Ecrecover`
agrees on that hash gives the same result and memory on every bundle. -/
theorem signedData_layout_injective (c' : Crypto) (address address' : common.Address)
    (index' : Nat) (hash' : common.Hash) (mem : Memory) (sigs : List Slice) (sig : Slice)
    (hi : index < 2 ^ 64) (hi' : index' < 2 ^ 64) :
    signedData address index hash
        = (0x19 : Byte) :: 0x00 :: (address.val ++ bigEndian 8 index ++ hash.val) ∧
      (signedData address index hash).length = 62 ∧
      (signedData address index hash = signedData address' index' hash' ↔
        address = address' ∧ index = index' ∧ hash = hash') ∧
      ((∃ b ∈ seen mem sigs, b.length = 65 ∧
          c.Ecrecover (c.Keccak256
            ((0x19 : Byte) :: 0x00 :: (cfg.Address.val ++ bigEndian 8 index ++ hash.val)))
            (subV b) = none) →
        (VerifySigners c cfg index hash mem sigs).1 = (false, [])) ∧
      (∀ pubkey, sig.len = 65 →
        c.Ecrecover (c.Keccak256
          ((0x19 : Byte) :: 0x00 :: (cfg.Address.val ++ bigEndian 8 index ++ hash.val)))
          (subV (readSlice mem sig)) = some pubkey →
        cfg.Signers.Nodup → pubkeyToSigner c pubkey ∈ cfg.Signers → cfg.Threshold ≤ 1 →
          (VerifySigners c cfg index hash mem [sig]).1 = (true, [pubkeyToSigner c pubkey])) ∧
      (c'.Keccak256 = c.Keccak256 →
        (∀ b, c'.Ecrecover (c.Keccak256
            ((0x19 : Byte) :: 0x00 :: (cfg.Address.val ++ bigEndian 8 index ++ hash.val))) b
          = c.Ecrecover (c.Keccak256
            ((0x19 : Byte) :: 0x00 :: (cfg.Address.val ++ bigEndian 8 index ++ hash.val))) b) →
        VerifySigners c' cfg index hash mem sigs = VerifySigners c cfg index hash mem sigs) := by
  have hlay : ∀ a, signedData a index hash
      = (0x19 : Byte) :: 0x00 :: (a.val ++ bigEndian 8 index ++ hash.val) := by
    intro a
    simp [signedData, PutUint64_eq_bigEndian]
  refine ⟨hlay address, signedData_length _ _ _, ⟨?_, ?_⟩, ?_, ?_, ?_⟩
  · exact signedData_injective _ _ _ _ _ _ hi hi'
  · rintro ⟨rfl, rfl, rfl⟩
    rfl
  · rintro ⟨b, hb, hl, hbad⟩
    apply VerifySigners_of_bad
    refine ⟨b, hb, hl, ?_⟩
    show recoverSigner c (signedData cfg.Address index hash) (subV b) = none
    rw [hlay]
    unfold recoverSigner
    rw [hbad]
  · intro pubkey h65 hrec hn hmem hT
    have hT' : ¬ ((1 : Int) < intOfUint64 cfg.Threshold) := by
      have := intOfUint64_le cfg.Threshold
      omega
    have hlen : ¬ (1 < cfg.Threshold) := by omega
    have hstep : recoverSigner c (signedData cfg.Address index hash)
        (readSlice (lowerV mem sig) sig) = some (pubkeyToSigner c pubkey) := by
      rw [readSlice_lowerV_self mem sig h65, hlay]
      unfold recoverSigner
      rw [hrec]
    simp [VerifySigners, verifyLoop, h65, hstep, hT', hlen,
      matchSigners_of_mem_nodup _ _ _ _ hn hmem]
  · intro hK hE
    have hrs : ∀ b, recoverSigner c' (signedData cfg.Address index hash) b
        = recoverSigner c (signedData cfg.Address index hash) b := by
      intro b
      rw [hlay]
      unfold recoverSigner
      rw [hK, hE]
      cases c.Ecrecover (c.Keccak256
        ((0x19 : Byte) :: 0x00 :: (cfg.Address.val ++ bigEndian 8 index ++ hash.val))) b with
      | none => rfl
      | some pk =>
        have hp : pubkeyToSigner c' pk = pubkeyToSigner c pk := by
          apply Subtype.ext
          simp [pubkeyToSigner, hK]
        simp [hp]
    unfold VerifySigners
    rw [verifyLoop_congr c cfg index hash c' hrs]

theorem signedData_layout_injective_witness :
    signedData (toyAddr 1) 7 zeroHash ≠ signedData (toyAddr 2) 7 zeroHash ∧
      signedData (toyAddr 1) 7 zeroHash ≠ signedData (toyAddr 1) 8 zeroHash ∧
      (VerifySigners toyCrypto (singleConfig (toyAddr 170) (toyAddr 1)) 7 zeroHash
        (toyMem [toySig 1]) [⟨0, 65⟩]).1
        = (true, [pubkeyToSigner toyCrypto (4 :: List.replicate 64 1)]) :=
  ⟨fun e => absurd ((signedData_layout_injective toyCrypto toyConfig 7 zeroHash toyCrypto
      (toyAddr 1) (toyAddr 2) 7 zeroHash (toyMem []) [] ⟨0, 0⟩
      (by norm_num) (by norm_num)).2.2.1.1 e).1 (by decide),
   fun e => absurd ((signedData_layout_injective toyCrypto toyConfig 7 zeroHash toyCrypto
      (toyAddr 1) (toyAddr 1) 8 zeroHash (toyMem []) [] ⟨0, 0⟩
      (by norm_num) (by norm_num)).2.2.1.1 e).2.1 (by decide),
   (signedData_layout_injective toyCrypto (singleConfig (toyAddr 170) (toyAddr 1)) 7 zeroHash
      toyCrypto (toyAddr 1) (toyAddr 1) 7 zeroHash (toyMem [toySig 1]) [] ⟨0, 65⟩
      (by norm_num) (by norm_num)).2.2.2.2.1 (4 :: List.replicate 64 1) (by decide) (by decide)
      (by decide) (by decide) (by decide)⟩

/-- C6. `New` returns nil exactly when the configuration is nil, or its address is the zero
address, or its threshold exceeds the number of configured signers; every oracle it returns
holds the given configuration and lookup function, is not running, and has no contract
handle. -/
theorem New_disabled_iff (Contract TC : Type) (config : Option params.CheckpointOracleConfig)
    (getLocal : Nat → TC) :
    (@New Contract TC config getLocal = none ↔
      (config = none ∨ ∃ cf, config = some cf ∧
        (cf.Address = zeroAddress ∨ cf.Signers.length < cf.Threshold))) ∧
    (∀ oracle, @New Contract TC config getLocal = some oracle →
      config = some oracle.config ∧ oracle.getLocal = getLocal ∧
        IsRunning oracle = false ∧ oracle.contract = none) := by
  cases config with
  | none => simp [New]
  | some cf =>
    by_cases h : cf.Address = zeroAddress ∨ cf.Signers.length < cf.Threshold
    · simp [New, h]
    · refine ⟨?_, ?_⟩
      · simp only [New, if_neg h, reduceCtorEq, false_iff, false_or, not_exists, not_and]
        rintro cf2 he hbad
        cases he
        exact h hbad
      · intro oracle ho
        simp only [New, if_neg h, Option.some.injEq] at ho
        subst ho
        simp [IsRunning]

theorem New_disabled_iff_witness :
    @New Unit Nat (some ⟨toyAddr 170, [toyAddr 1, toyAddr 1], 0⟩) id
        ≠ none ∧
      @New Unit Nat (some ⟨zeroAddress, [toyAddr 1], 1⟩) id = none :=
  ⟨fun hn => by
      rcases (New_disabled_iff Unit Nat
        (some ⟨toyAddr 170, [toyAddr 1, toyAddr 1], 0⟩) id).1.1 hn with e | e
      · cases e
      · obtain ⟨cf, e, hbad⟩ := e
        cases e
        revert hbad
        decide,
   (New_disabled_iff Unit Nat (some ⟨zeroAddress, [toyAddr 1], 1⟩) id).1.2 (Or.inr ⟨_, rfl, Or.inl rfl⟩)⟩

/-- C7. On an oracle with a contract handle, `StableCheckpoint` returns a pair
`(cp, height)`; `cp` is non-nil exactly when the read succeeded, the answer is not index 0 with
the zero hash, and `getLocal(index)` is hash-equal to the on-chain hash; in that case `cp` is
`getLocal(index)` and `height` is the on-chain height reduced to 64 bits; a nil `cp` comes
with height 0; and a non-nil `cp` is always hash-equal to the on-chain hash. -/
theorem StableCheckpoint_spec {Contract TC : Type} (env : OracleEnv Contract TC)
    (oracle : CheckpointOracle Contract TC) (contract : Contract)
    (hbound : oracle.contract = some contract) :
    ∃ cp height, StableCheckpoint env oracle = some (cp, height) ∧
      (cp.isSome = true ↔ ∃ latest h height0,
        env.GetLatestCheckpoint contract = some (latest, h, height0) ∧
          ¬ (latest = 0 ∧ h = zeroHash) ∧ env.HashEqual (oracle.getLocal latest) h = true) ∧
      (∀ latest h height0, env.GetLatestCheckpoint contract = some (latest, h, height0) →
        ¬ (latest = 0 ∧ h = zeroHash) → env.HashEqual (oracle.getLocal latest) h = true →
          cp = some (oracle.getLocal latest) ∧ height = height0 % 2 ^ 64) ∧
      (cp = none → height = 0) ∧
      (∀ loc, cp = some loc → ∃ latest h height0,
        env.GetLatestCheckpoint contract = some (latest, h, height0) ∧
          loc = oracle.getLocal latest ∧ env.HashEqual loc h = true) := by
  cases hread : env.GetLatestCheckpoint contract with
  | none =>
    exact ⟨none, 0, by simp [StableCheckpoint, hbound, hread], by simp, by simp, by simp, by simp⟩
  | some r =>
    obtain ⟨latest, h, height0⟩ := r
    by_cases hz : latest = 0 ∧ h = zeroHash
    · refine ⟨none, 0, by simp [StableCheckpoint, hbound, hread, hz], ?_, ?_, by simp, by simp⟩
      · constructor
        · intro hc; cases hc
        · rintro ⟨l, h', g, he, hnz, _⟩
          cases he
          exact absurd hz hnz
      · rintro l h' g he hnz
        cases he
        exact absurd hz hnz
    · by_cases heq : env.HashEqual (oracle.getLocal latest) h = true
      · refine ⟨some (oracle.getLocal latest), bigUint64 height0,
          by simp [StableCheckpoint, hbound, hread, hz, heq], ?_, ?_, by simp, ?_⟩
        · constructor
          · intro _
            exact ⟨latest, h, height0, rfl, hz, heq⟩
          · intro _
            rfl
        · rintro l h' g he _ _
          cases he
          exact ⟨rfl, rfl⟩
        · rintro loc hloc
          cases hloc
          exact ⟨latest, h, height0, rfl, rfl, heq⟩
      · refine ⟨none, 0, by simp [StableCheckpoint, hbound, hread, hz, heq], ?_, ?_, by simp,
          by simp⟩
        · constructor
          · intro hc; cases hc
          · rintro ⟨l, h', g, he, _, hh⟩
            cases he
            exact absurd hh heq
        · rintro l h' g he _ hh
          cases he
          exact absurd hh heq

theorem StableCheckpoint_spec_witness :
    StableCheckpoint toyOracleEnv
        (Start (fun _ (_ : Unit) => some ()) ⟨toyConfig, none, 0, id⟩ ()) = some (some 7, 5) := by
  obtain ⟨cp, height, h1, _, h3, _, _⟩ := StableCheckpoint_spec toyOracleEnv
    (Start (fun _ (_ : Unit) => some ()) ⟨toyConfig, none, 0, id⟩ ()) () rfl
  obtain ⟨h4, h5⟩ := h3 7 zeroHash (2 ^ 64 + 5) rfl (by decide) rfl
  rw [h1, h4, h5]
  rfl

/-- C8. For the callback that `NewStateSync` installs, every leaf and every parent hash: when
decoding fails the callback returns the decode error and performs no engine call; when decoding
gives `obj` it performs exactly two engine calls, `AddSubTrie(obj.Root, 64, parent, nil)` and
then `AddRawEntry(BytesToHash(obj.CodeHash), 64, parent)`, both on the engine pointer that
`NewStateSync` returns, and returns nil. -/
theorem NewStateSync_callback {Ptr ε DB Bloom : Type} (env : state.SyncEnv ε)
    (newSync : common.Hash → DB → Bloom → Ptr) (root : common.Hash) (database : DB)
    (bloom : Bloom) (leaf : List Byte) (parent : common.Hash) :
    (state.NewStateSync env newSync root database bloom).syncer = newSync root database bloom ∧
    (∀ err, env.Decode leaf = .error err →
      (state.NewStateSync env newSync root database bloom).onLeaf leaf parent
        = ([], some err)) ∧
    (∀ obj, env.Decode leaf = .ok obj →
      (state.NewStateSync env newSync root database bloom).onLeaf leaf parent
        = ([state.SyncCall.AddSubTrie (state.NewStateSync env newSync root database bloom).syncer
              obj.Root 64 parent true,
            state.SyncCall.AddRawEntry (state.NewStateSync env newSync root database bloom).syncer
              (env.BytesToHash obj.CodeHash) 64 parent], none)) := by
  refine ⟨rfl, ?_, ?_⟩
  · intro err h
    simp [state.NewStateSync, state.callback, h]
  · intro obj h
    simp [state.NewStateSync, state.callback, h]

theorem NewStateSync_callback_witness :
    (state.NewStateSync toySyncEnv (fun _ (_ _ : Unit) => (0 : Nat)) zeroHash () ()).onLeaf
        [] zeroHash = ([], some ()) ∧
      (state.NewStateSync toySyncEnv (fun _ (_ _ : Unit) => (0 : Nat)) zeroHash () ()).onLeaf
        [1] zeroHash = ([state.SyncCall.AddSubTrie 0 zeroHash 64 zeroHash true,
          state.SyncCall.AddRawEntry 0 zeroHash 64 zeroHash], none) :=
  ⟨(NewStateSync_callback toySyncEnv (fun _ (_ _ : Unit) => (0 : Nat)) zeroHash () ()
      [] zeroHash).2.1 () rfl,
   (NewStateSync_callback toySyncEnv (fun _ (_ _ : Unit) => (0 : Nat)) zeroHash () ()
      [1] zeroHash).2.2 ⟨zeroHash, [1]⟩ rfl⟩

/-- C10, where the code departs from the claim. A call that passes the length check, on a
bundle that holds the same 65-byte slice twice with a first recovery that succeeds, leaves
byte 64 of that entry at `(old - 54) mod 256`: line 139 runs once per position, so the entry is
not the original with byte 64 at `(old - 27) mod 256`. And an entry of another length that
contains byte 64 of a reached 65-byte entry is changed by the call. -/
theorem VerifySigners_shared_memory_lowered_twice (mem : Memory) (sig wide : Slice)
    (hsig : sig.len = 65) (hT : ¬ ((2 : Int) < intOfUint64 cfg.Threshold))
    (hrec : entryAddr c cfg index hash (readSlice mem sig) ≠ none)
    (hwide : wide.len ≠ 65)
    (hin : wide.off ≤ sig.off + 64 ∧ sig.off + 64 < wide.off + wide.len) :
    ((((VerifySigners c cfg index hash mem [sig, sig]).2 (sig.off + 64)).val : Int)
        = (((mem (sig.off + 64)).val : Int) - 54) % 256 ∧
      readSlice (VerifySigners c cfg index hash mem [sig, sig]).2 sig
        ≠ subV (readSlice mem sig)) ∧
    readSlice (VerifySigners c cfg index hash mem [sig, wide]).2 wide ≠ readSlice mem wide := by
  have hT2 : ¬ ((([sig, sig] : List Slice).length : Int) < intOfUint64 cfg.Threshold) := by
    simpa using hT
  have hT3 : ¬ ((([sig, wide] : List Slice).length : Int) < intOfUint64 cfg.Threshold) := by
    simpa using hT
  have h1 : (VerifySigners c cfg index hash mem [sig, sig]).2 = lowerV (lowerV mem sig) sig := by
    rw [VerifySigners_snd, if_neg hT2, touched, if_neg (by simpa using hsig), if_neg hrec,
      touched, if_neg (by simpa using hsig)]
    split <;> rfl
  have h2 : (VerifySigners c cfg index hash mem [sig, wide]).2 = lowerV mem sig := by
    rw [VerifySigners_snd, if_neg hT3, touched, if_neg (by simpa using hsig), if_neg hrec,
      touched, if_pos hwide]
    rfl
  have hb := (mem (sig.off + 64)).isLt
  refine ⟨⟨?_, ?_⟩, ?_⟩
  · rw [h1]
    exact lowerV_twice mem sig
  · rw [h1]
    intro e
    have e2 := congrArg (fun l => ((l.getD 64 0).val : Int)) e
    simp only at e2
    rw [getD_readSlice _ sig 64 (by omega), lowerV_twice,
      subV_getD _ (by rw [length_readSlice]; exact hsig),
      getD_readSlice _ sig 64 (by omega)] at e2
    omega
  · rw [h2]
    intro e
    have e2 := congrArg (fun l => ((l.getD (sig.off + 64 - wide.off) 0).val : Int)) e
    simp only at e2
    rw [getD_readSlice _ wide _ (by omega), getD_readSlice _ wide _ (by omega)] at e2
    have ha : wide.off + (sig.off + 64 - wide.off) = sig.off + 64 := by omega
    rw [ha, lowerV_once] at e2
    omega

theorem VerifySigners_shared_memory_lowered_twice_witness :
    ((((VerifySigners toyCrypto toyConfig 7 zeroHash (toyMem [toySig 1, [0]])
          [⟨0, 65⟩, ⟨0, 65⟩]).2 (0 + 64)).val : Int)
        = ((((toyMem [toySig 1, [0]]) (0 + 64)).val : Int) - 54) % 256 ∧
      readSlice (VerifySigners toyCrypto toyConfig 7 zeroHash (toyMem [toySig 1, [0]])
          [⟨0, 65⟩, ⟨0, 65⟩]).2 ⟨0, 65⟩
        ≠ subV (readSlice (toyMem [toySig 1, [0]]) ⟨0, 65⟩)) ∧
    readSlice (VerifySigners toyCrypto toyConfig 7 zeroHash (toyMem [toySig 1, [0]])
        [⟨0, 65⟩, ⟨0, 66⟩]).2 ⟨0, 66⟩ ≠ readSlice (toyMem [toySig 1, [0]]) ⟨0, 66⟩ :=
  VerifySigners_shared_memory_lowered_twice toyCrypto toyConfig 7 zeroHash
    (toyMem [toySig 1, [0]]) ⟨0, 65⟩ ⟨0, 66⟩ (by decide) (by decide) (by decide) (by decide)
    (by decide)

/-- What the call leaves in memory. A call stopped by the length check changes nothing, and in
every layout a byte that is not byte 64 of a 65-byte entry keeps its value. When no two entries
of the bundle share memory, every 65-byte entry that the loop reaches has byte 64 replaced by
`(old - 27) mod 256`, and every entry of another length or not reached is unchanged. -/
theorem VerifySigners_writes_apart_bundle (mem : Memory) (sigs : List Slice) :
    ((sigs.length : Int) < intOfUint64 cfg.Threshold →
      (VerifySigners c cfg index hash mem sigs).2 = mem) ∧
    (∀ a, (∀ s ∈ sigs, s.len = 65 → a ≠ s.off + 64) →
      (VerifySigners c cfg index hash mem sigs).2 a = mem a) ∧
    (¬ (sigs.length : Int) < intOfUint64 cfg.Threshold → Apart sigs →
      (∀ i sig, sigs[i]? = some sig → sig.len = 65 →
        reached c cfg index hash (bundle mem sigs) i →
          readSlice (VerifySigners c cfg index hash mem sigs).2 sig = subV (readSlice mem sig) ∧
          (subV (readSlice mem sig)).length = 65 ∧
          (subV (readSlice mem sig)).take 64 = (readSlice mem sig).take 64 ∧
          (((subV (readSlice mem sig)).getD 64 0).val : Int)
            = ((((readSlice mem sig).getD 64 0).val : Int) - 27) % 256 ∧
          subV (readSlice mem sig) ≠ readSlice mem sig) ∧
      (∀ i sig, sigs[i]? = some sig →
        (sig.len ≠ 65 ∨ ¬ reached c cfg index hash (bundle mem sigs) i) →
          readSlice (VerifySigners c cfg index hash mem sigs).2 sig = readSlice mem sig)) := by
  rw [VerifySigners_snd]
  refine ⟨fun h => by rw [if_pos h], ?_, ?_⟩
  · intro a ha
    split
    · rfl
    · exact touched_frame c cfg index hash sigs mem a ha
  · intro h hap
    rw [if_neg h]
    refine ⟨?_, ?_⟩
    · intro i sig hs h65 hr
      have hl : (readSlice mem sig).length = 65 := by rw [length_readSlice]; exact h65
      exact ⟨(touched_entry c cfg index hash sigs mem i sig hap hs).1 h65 hr,
        (subV_length _).trans hl, subV_take _, subV_getD _ hl, subV_ne _ hl⟩
    · intro i sig hs hor
      exact (touched_entry c cfg index hash sigs mem i sig hap hs).2 hor

end claims

end GFS
